import Mathlib

/-!
Verification of the deduplicator's detection-and-grouping engine.

Shallow embedding of `src/core/scanner.py`, `src/core/base.py`,
`src/core/image_detector.py`, `src/core/video_detector.py`,
`src/core/document_detector.py` and `src/core/archive_code_detector.py`.

Conventions of the embedding:
* Python floats are modelled as exact rationals (`ℚ`); all similarity
  arithmetic in the source is on small rationals (sums, divisions by
  constants), so exact arithmetic coincides with the intended values.
* File I/O and third-party decoding (PIL/imagehash/cv2) appear as explicit
  `Option`-valued inputs or oracle functions: `none` models an exception
  raised by the library or the OS (permission denied, corrupt file), which
  the source converts to an absent signature.
* Python `dict` (insertion ordered) is modelled by ordered association
  lists; truthiness tests (`if sig:`) test both for `none` and `""`.
-/

set_option maxHeartbeats 1000000
set_option maxRecDepth 8000

unseal Rat.add Rat.sub Rat.mul Rat.inv Rat.ofScientific

namespace Dedup

/-! ### String splitting (Python `str.split`), structurally recursive so the
kernel can evaluate it -/

/-- Split a character list at every character satisfying the predicate
(separators are consumed; empty segments are kept, as Python
`str.split(sep)` does for an explicit separator). -/
def splitOnP (p : Char → Bool) : List Char → List (List Char)
  | [] => [[]]
  | x :: xs =>
      let r := splitOnP p xs
      if p x then [] :: r
      else
        match r with
        | [] => [[x]]
        | y :: ys => (x :: y) :: ys

/-- Python `s.split(c)` for a one-character separator (the source always
splits signatures on the one-character delimiter `"|"` and code on
`"\n"`). -/
def pySplitChar (c : Char) (s : String) : List String :=
  (splitOnP (fun x => x == c) s.data).map String.mk

/-! ### Hex strings, bits and Hamming distance (imagehash `hex_to_hash`, `__sub__`) -/

/-- Value of one hexadecimal digit, as accepted by Python `int(s, 16)`. -/
def hexVal (c : Char) : Option Nat :=
  if '0' ≤ c ∧ c ≤ '9' then some (c.toNat - 48)
  else if 'a' ≤ c ∧ c ≤ 'f' then some (c.toNat - 87)
  else if 'A' ≤ c ∧ c ≤ 'F' then some (c.toNat - 55)
  else none

/-- Big-endian bits of one hex digit value. -/
def nibbleBits (n : Nat) : List Bool :=
  [n / 8 % 2 == 1, n / 4 % 2 == 1, n / 2 % 2 == 1, n % 2 == 1]

/-- Bit array denoted by a hex string: `imagehash.hex_to_hash` converts the
string through `int(hexstr, 16)` to a zero-padded big-endian bit array of
`4 * length` bits.  `none` models the `ValueError` raised on a malformed or
empty string. -/
def hexToBits (s : String) : Option (List Bool) :=
  if s = "" then none
  else (s.data.mapM hexVal).map (fun ns => ns.flatMap nibbleBits)

/-- Count of differing positions between two (equal-length) bit arrays. -/
def hammingBits (b1 b2 : List Bool) : Nat :=
  (b1.zip b2).countP (fun p => p.1 != p.2)

/-- Whether a bit count is a perfect square; `hex_to_hash` computes
`int(sqrt(count))` and asserts that its square gives the count back.
(Implemented as a bounded search so the kernel can evaluate it.) -/
def isSquareLen (n : Nat) : Bool :=
  (List.range (n + 1)).any (fun k => k * k == n)

/-- Hamming distance of two hex-encoded hashes, as computed by
`imagehash.hex_to_hash(h1) - imagehash.hex_to_hash(h2)`:
`none` models any raised exception (malformed hex, non-square bit count,
or a size mismatch between the two hashes). -/
def subHash (h1 h2 : String) : Option Nat :=
  match hexToBits h1, hexToBits h2 with
  | some b1, some b2 =>
      if isSquareLen b1.length ∧ isSquareLen b2.length ∧ b1.length = b2.length
      then some (hammingBits b1 b2)
      else none
  | _, _ => none

/-- Minimum of a list of rationals (Python `min`; the empty case never
arises in the source and is given the junk value 0). -/
def minList : List ℚ → ℚ
  | [] => 0
  | x :: xs => xs.foldl min x

/-! ### SHA-256 (`hashlib.sha256`), used by the archive, document and code
detectors.  Full implementation over byte lists, words as `Nat` mod 2^32. -/

namespace SHA256

/-- Modulus for 32-bit words. -/
def M32 : Nat := 4294967296

/-- Right rotation of a 32-bit word. -/
def rotr (n x : Nat) : Nat :=
  ((x >>> n) ||| ((x <<< (32 - n)))) % M32

def bsig0 (x : Nat) : Nat := rotr 2 x ^^^ rotr 13 x ^^^ rotr 22 x
def bsig1 (x : Nat) : Nat := rotr 6 x ^^^ rotr 11 x ^^^ rotr 25 x
def ssig0 (x : Nat) : Nat := rotr 7 x ^^^ rotr 18 x ^^^ (x >>> 3)
def ssig1 (x : Nat) : Nat := rotr 17 x ^^^ rotr 19 x ^^^ (x >>> 10)
def ch (x y z : Nat) : Nat := (x &&& y) ^^^ ((x ^^^ 4294967295) &&& z)
def maj (x y z : Nat) : Nat := (x &&& y) ^^^ (x &&& z) ^^^ (y &&& z)

/-- Round constants. -/
def K : List Nat :=
  [1116352408, 1899447441, 3049323471, 3921009573, 961987163, 1508970993,
   2453635748, 2870763221, 3624381080, 310598401, 607225278, 1426881987,
   1925078388, 2162078206, 2614888103, 3248222580, 3835390401, 4022224774,
   264347078, 604807628, 770255983, 1249150122, 1555081692, 1996064986,
   2554220882, 2821834349, 2952996808, 3210313671, 3336571891, 3584528711,
   113926993, 338241895, 666307205, 773529912, 1294757372, 1396182291,
   1695183700, 1986661051, 2177026350, 2456956037, 2730485921, 2820302411,
   3259730800, 3345764771, 3516065817, 3600352804, 4094571909, 275423344,
   430227734, 506948616, 659060556, 883997877, 958139571, 1322822218,
   1537002063, 1747873779, 1955562222, 2024104815, 2227730452, 2361852424,
   2428436474, 2756734187, 3204031479, 3329325298]

/-- The n lowest bytes of a number, big-endian. -/
def toBytesBE (k n : Nat) : List Nat :=
  (List.range k).map (fun i => (n >>> (8 * (k - 1 - i))) % 256)

/-- Message padding: a 0x80 byte, zeros to 56 mod 64, then the bit length
as an 8-byte big-endian number. -/
def padBytes (msg : List Nat) : List Nat :=
  let z := (64 + 56 - (msg.length + 1) % 64) % 64
  msg ++ [128] ++ List.replicate z 0 ++ toBytesBE 8 (8 * msg.length)

/-- Big-endian 32-bit words of a byte list. -/
def bytesToWords : List Nat → List Nat
  | b0 :: b1 :: b2 :: b3 :: rest =>
      (((b0 * 256 + b1) * 256 + b2) * 256 + b3) :: bytesToWords rest
  | _ => []

/-- Split into 64-byte blocks (structural recursion on a fuel bounded by the
length, so that the kernel can evaluate it). -/
def chunks64Aux : Nat → List Nat → List (List Nat)
  | 0, _ => []
  | _, [] => []
  | fuel + 1, l => l.take 64 :: chunks64Aux fuel (l.drop 64)

/-- Split into 64-byte blocks. -/
def chunks64 (l : List Nat) : List (List Nat) :=
  chunks64Aux l.length l

/-- One message-schedule extension step. -/
def extendW (w : List Nat) : List Nat :=
  w ++ [(ssig1 (w.getD (w.length - 2) 0) + w.getD (w.length - 7) 0 +
         ssig0 (w.getD (w.length - 15) 0) + w.getD (w.length - 16) 0) % M32]

/-- Full 64-word message schedule from the 16 block words. -/
def schedule (w16 : List Nat) : List Nat := extendW^[48] w16

/-- Working state of the compression function. -/
structure Hs where
  a : Nat
  b : Nat
  c : Nat
  d : Nat
  e : Nat
  f : Nat
  g : Nat
  hh : Nat

/-- Initial hash state. -/
def initHs : Hs :=
  ⟨0x6a09e667, 0xbb67ae85, 0x3c6ef372, 0xa54ff53a,
   0x510e527f, 0x9b05688c, 0x1f83d9ab, 0x5be0cd19⟩

/-- One compression round. -/
def roundStep (s : Hs) (wi ki : Nat) : Hs :=
  let t1 := (s.hh + bsig1 s.e + ch s.e s.f s.g + ki + wi) % M32
  let t2 := (bsig0 s.a + maj s.a s.b s.c) % M32
  ⟨(t1 + t2) % M32, s.a, s.b, s.c, (s.d + t1) % M32, s.e, s.f, s.g⟩

/-- Compress one 64-byte block into the state. -/
def compressBlock (st : Hs) (block : List Nat) : Hs :=
  let w := schedule (bytesToWords block)
  let s := (w.zip K).foldl (fun s p => roundStep s p.1 p.2) st
  ⟨(st.a + s.a) % M32, (st.b + s.b) % M32, (st.c + s.c) % M32,
   (st.d + s.d) % M32, (st.e + s.e) % M32, (st.f + s.f) % M32,
   (st.g + s.g) % M32, (st.hh + s.hh) % M32⟩

/-- Lowercase hex digit. -/
def hexDigit (n : Nat) : Char :=
  if n < 10 then Char.ofNat (48 + n) else Char.ofNat (87 + n)

/-- Eight lowercase hex digits of a 32-bit word, big-endian. -/
def toHex8 (x : Nat) : String :=
  String.mk ((List.range 8).map (fun i => hexDigit ((x >>> (28 - 4 * i)) % 16)))

end SHA256

/-- Hex digest of SHA-256 over a byte list, as `hashlib.sha256(..).hexdigest()`. -/
def sha256hex (msg : List Nat) : String :=
  let fin := (SHA256.chunks64 (SHA256.padBytes msg)).foldl SHA256.compressBlock SHA256.initHs
  SHA256.toHex8 fin.a ++ SHA256.toHex8 fin.b ++ SHA256.toHex8 fin.c ++
  SHA256.toHex8 fin.d ++ SHA256.toHex8 fin.e ++ SHA256.toHex8 fin.f ++
  SHA256.toHex8 fin.g ++ SHA256.toHex8 fin.hh

/-- UTF-8 bytes of a string (Python `text.encode('utf-8')`). -/
def utf8Bytes (s : String) : List Nat :=
  s.toUTF8.toList.map (fun b => b.toNat)

/-! ### Association lists standing for Python dicts -/

/-- Lookup in an association list (Python `dict.get`, first binding wins;
the embedding only ever binds a key to one value). -/
def lookupStr {α : Type} : List (String × α) → String → Option α
  | [], _ => none
  | (k', v) :: rest, k => if k = k' then some v else lookupStr rest k

/-- Python truthiness filter on an optional string: `if sig:` rejects both
`None` and the empty string. -/
def truthy : Option String → Option String
  | none => none
  | some s => if s = "" then none else some s

/-! ### ImageDetector (`src/core/image_detector.py`) -/

namespace ImageDetector

/-- Model of `ImageDetector._parse_signature`: split on the delimiter and
require exactly three parts. -/
def parse_signature (sig : String) : Option (List String) :=
  let parts := pySplitChar '|' sig
  if parts.length ≠ 3 then none else some parts

/-- Model of `ImageDetector.compare_signatures`: parse both signatures
(returning 0.0 if either is malformed), compute the per-channel similarity
`1 - distance / (hash_size * hash_size)` and return the minimum across the
three channels; any exception inside the loop (malformed hex, shape
mismatch) yields 0.0.  The scanner constructs the detector with the default
`hash_size = 12`. -/
def compare_signatures (hash_size : Nat) (sig1 sig2 : String) : ℚ :=
  match parse_signature sig1, parse_signature sig2 with
  | some parts1, some parts2 =>
      let maxDistance : ℚ := ((hash_size * hash_size : Nat) : ℚ)
      match (parts1.zip parts2).mapM (fun p => subHash p.1 p.2) with
      | none => 0
      | some ds => minList (ds.map (fun d => 1 - (d : ℚ) / maxDistance))
  | _, _ => 0

/-- Model of `ImageDetector.compute_signature` together with its
`self.cache` dict.  The PIL/imagehash pipeline (open, verify, convert,
three perceptual hashes joined by `|`) is abstracted as an oracle
`hashOf : path → Option signature` (`none` models a raised exception, which
the source converts to `None`).  The cache is a plain dict: unbounded, no
eviction; on a hit the oracle is not consulted at all. -/
def compute_signature (hashOf : String → Option String)
    (cache : List (String × String)) (path : String) :
    Option String × List (String × String) :=
  match lookupStr cache path with
  | some v => (some v, cache)
  | none =>
      match hashOf path with
      | some s => (some s, cache ++ [(path, s)])
      | none => (none, cache)

/-- Cache contents after a sequence of `compute_signature` calls. -/
def cacheAfter (hashOf : String → Option String) (paths : List String)
    (cache : List (String × String)) : List (String × String) :=
  paths.foldl (fun c p => (compute_signature hashOf c p).2) cache

end ImageDetector

/-! ### VideoDetector (`src/core/video_detector.py`) -/

namespace VideoDetector

/-- Model of `VideoDetector.compute_signature`.  The cv2 capture is
abstracted as the frame count plus an oracle `readFrame : index → Option
hash` giving the 8x8 average-hash hex string of a decoded frame (`none`
models `cap.read()` returning `ret = False`, whose frame is skipped).
Python computes sampling indices with `int(i * total / sample)`; the claim
under verification only exercises the `total ≤ sample` branch, and the
other branch is modelled with exact floor division. -/
def compute_signature (sample_frames total_frames : Nat)
    (readFrame : Nat → Option String) : Option String :=
  if total_frames = 0 then none
  else
    let frame_indices :=
      if total_frames ≤ sample_frames then List.range total_frames
      else (List.range sample_frames).map (fun i => i * total_frames / sample_frames)
    let hashes := frame_indices.filterMap readFrame
    if hashes = [] then none
    else some (String.intercalate "|" hashes)

/-- Model of `VideoDetector.compare_signatures`: split both signatures on
the delimiter; a differing frame count yields 0.0, otherwise the mean of
the per-frame similarities `1 - distance / 64`; any exception while
hashing a frame pair yields 0.0. -/
def compare_signatures (sig1 sig2 : String) : ℚ :=
  let hashes1 := pySplitChar '|' sig1
  let hashes2 := pySplitChar '|' sig2
  if hashes1.length ≠ hashes2.length then 0
  else
    match (hashes1.zip hashes2).mapM (fun p => subHash p.1 p.2) with
    | none => 0
    | some ds =>
        let sims := ds.map (fun d : Nat => 1 - (d : ℚ) / 64)
        if sims = [] then 0 else sims.sum / (sims.length : ℚ)

/-- Model of the `self.cache` dict wrapped around the frame pipeline
(`if file_path in self.cache: return self.cache[file_path]`, and
`self.cache[file_path] = signature` only on success).  Like the image
detector's cache it is a plain dict: unbounded, no eviction; on a hit the
pipeline (abstracted as `sigOf`) is not run at all. -/
def compute_signature_cached (sigOf : String → Option String)
    (cache : List (String × String)) (path : String) :
    Option String × List (String × String) :=
  match lookupStr cache path with
  | some v => (some v, cache)
  | none =>
      match sigOf path with
      | some s => (some s, cache ++ [(path, s)])
      | none => (none, cache)

end VideoDetector

/-! ### BoundedCache (`src/core/document_detector.py`,
`src/core/archive_code_detector.py`; both files define the identical
class) -/

/-- Model of `BoundedCache`: an `OrderedDict` held in recency order, least
recently used first (Python keeps insertion order and `move_to_end` sends a
key to the back; `popitem(last=False)` pops the front). -/
structure BoundedCache where
  maxsize : Nat
  entries : List (String × String)

namespace BoundedCache

/-- Model of `BoundedCache.get`: a hit moves the key to the back (most
recently used) and returns its value; a miss returns `none`. -/
def get (c : BoundedCache) (key : String) : Option String × BoundedCache :=
  match lookupStr c.entries key with
  | some v =>
      (some v, ⟨c.maxsize, (c.entries.filter (fun p => p.1 != key)) ++ [(key, v)]⟩)
  | none => (none, c)

/-- Model of `BoundedCache.set`: an existing key is moved to the back and
overwritten; otherwise, if the cache is full, the front (least recently
used) entry is evicted before appending. -/
def set (c : BoundedCache) (key v : String) : BoundedCache :=
  match lookupStr c.entries key with
  | some _ => ⟨c.maxsize, (c.entries.filter (fun p => p.1 != key)) ++ [(key, v)]⟩
  | none =>
      if c.maxsize ≤ c.entries.length then
        ⟨c.maxsize, c.entries.drop 1 ++ [(key, v)]⟩
      else ⟨c.maxsize, c.entries ++ [(key, v)]⟩

end BoundedCache

/-! ### DocumentDetector (`src/core/document_detector.py`) -/

namespace DocumentDetector

/-- Python `str.strip()` (leading/trailing whitespace). -/
def pyStrip (s : String) : String :=
  String.mk (((s.data.dropWhile Char.isWhitespace).reverse.dropWhile
    Char.isWhitespace).reverse)

/-- Python `' '.join(text.split())`: split on whitespace runs, rejoin with
single spaces. -/
def normalizeWhitespace (s : String) : String :=
  String.intercalate " "
    (((splitOnP Char.isWhitespace s.data).map String.mk).filter (fun w => w ≠ ""))

/-- Model of `DocumentDetector.extract_text` for the plain-text formats
(`.txt`/`.srt`/`.vtt`/`.sub` branch; the docx/odt/pdf extractors are
format-specific library calls with the same downstream handling).  The
input is the decoded file content, `none` standing for a raised I/O
exception; `_read_text_file` returns `""` when every decode attempt fails.
Truthy content is whitespace-normalized; falsy (empty) content is returned
unchanged. -/
def extract_text (raw : Option String) : Option String :=
  match raw with
  | none => none
  | some content =>
      if content = "" then some "" else some (normalizeWhitespace content)

/-- Model of `DocumentDetector.compute_signature`: absent or too-short
extracted text yields no signature, otherwise the SHA-256 of the
normalized text. -/
def compute_signature (raw : Option String) : Option String :=
  match extract_text raw with
  | none => none
  | some text =>
      if text = "" ∨ (pyStrip text).length < 10 then none
      else some (sha256hex (utf8Bytes text))

/-- Model of `DocumentDetector.compare_signatures`: signatures are SHA-256
hashes, identical hash means 1.0, differing hashes 0.0 (the fuzzy
`compare_files` fallback is not consulted here). -/
def compare_signatures (sig1 sig2 : String) : ℚ :=
  if sig1 = sig2 then 1 else 0

/-- Model of `DocumentDetector.extract_text` together with its
`self.text_cache` (`BoundedCache`).  The cache maps the path to the
extracted, whitespace-normalized text, not to a signature.  A hit returns
the cached text (moved to most-recently-used) without touching the file;
on a miss, truthy content is normalized and cached, falsy content (`""`)
is returned uncached, and a raised extraction (`rawOf path = none`) yields
`None`. -/
def extract_text_cached (rawOf : String → Option String)
    (cache : BoundedCache) (path : String) : Option String × BoundedCache :=
  match cache.get path with
  | (some cached, cache') => (some cached, cache')
  | (none, cache') =>
      match rawOf path with
      | none => (none, cache')
      | some content =>
          if content = "" then (some "", cache')
          else (some (normalizeWhitespace content),
                cache'.set path (normalizeWhitespace content))

/-- Model of `DocumentDetector.compute_signature` over the cached
extraction: the SHA-256 of the text is recomputed on every call — only the
extraction step is served from `text_cache`; the hash itself is never
cached. -/
def compute_signature_cached (rawOf : String → Option String)
    (cache : BoundedCache) (path : String) : Option String × BoundedCache :=
  match extract_text_cached rawOf cache path with
  | (none, cache') => (none, cache')
  | (some text, cache') =>
      if text = "" ∨ (pyStrip text).length < 10 then (none, cache')
      else (some (sha256hex (utf8Bytes text)), cache')

end DocumentDetector

/-! ### CodeDetector and ArchiveDetector
(`src/core/archive_code_detector.py`) -/

namespace CodeDetector

/-- Model of `CodeDetector.normalize_code`: the input is the decoded file
content (`none` = raised exception; every decode attempt failing leaves
`content = None` which is falsy, like `""`).  Strips each line, drops empty
and comment-only lines, joins with single spaces. -/
def normalize_code (raw : Option String) : Option String :=
  match raw with
  | none => none
  | some content =>
      if content = "" then none
      else
        let lines := (pySplitChar '\n' content).map DocumentDetector.pyStrip
        let lines := lines.filter
          (fun l => l ≠ "" ∧ ¬ l.startsWith "#" ∧ ¬ l.startsWith "//" ∧ ¬ l.startsWith "/*")
        some (String.intercalate " " lines)

/-- Model of `CodeDetector.compute_signature`: SHA-256 of the normalized
code, absent when normalization yields nothing. -/
def compute_signature (raw : Option String) : Option String :=
  match normalize_code raw with
  | none => none
  | some code =>
      if code = "" then none else some (sha256hex (utf8Bytes code))

/-- Model of `CodeDetector.compare_signatures`: identical hash 1.0, else
0.0. -/
def compare_signatures (sig1 sig2 : String) : ℚ :=
  if sig1 = sig2 then 1 else 0

/-- Model of `CodeDetector.normalize_code` together with its
`self.code_cache` (`BoundedCache`).  The cache maps the path to the
normalized code text, not to a signature.  A hit returns the cached text
(moved to most-recently-used) without reading the file; a miss normalizes
and caches the result (even when the normalization is empty: Python's
`set` runs for any successfully read file). -/
def normalize_code_cached (rawOf : String → Option String)
    (cache : BoundedCache) (path : String) : Option String × BoundedCache :=
  match cache.get path with
  | (some cached, cache') => (some cached, cache')
  | (none, cache') =>
      match normalize_code (rawOf path) with
      | none => (none, cache')
      | some normalized => (some normalized, cache'.set path normalized)

/-- Model of `CodeDetector.compute_signature` over the cached
normalization: the SHA-256 of the code is recomputed on every call — only
the normalization step is served from `code_cache`; the hash itself is
never cached. -/
def compute_signature_cached (rawOf : String → Option String)
    (cache : BoundedCache) (path : String) : Option String × BoundedCache :=
  match normalize_code_cached rawOf cache path with
  | (none, cache') => (none, cache')
  | (some code, cache') =>
      if code = "" then (none, cache')
      else (some (sha256hex (utf8Bytes code)), cache')

end CodeDetector

namespace ArchiveDetector

/-- Model of `ArchiveDetector.compute_signature`: the SHA-256 hex digest of
the full byte stream (`BaseDetector.file_hash` reads the file in 8192-byte
chunks, which hashes the concatenation of all chunks, i.e. the whole
stream).  `none` models a raised exception (e.g. permission denied), which
the `except` clause converts to `None`.  Note that a readable zero-byte
file yields `some (sha256hex [])`, a valid signature. -/
def compute_signature (raw : Option (List Nat)) : Option String :=
  raw.map sha256hex

/-- Model of `ArchiveDetector.compare_files`: exact hash equality only. -/
def compare_files (raw1 raw2 : Option (List Nat)) : ℚ :=
  match compute_signature raw1, compute_signature raw2 with
  | some h1, some h2 => if h1 = h2 then 1 else 0
  | _, _ => 0

end ArchiveDetector

/-! ### DuplicateScanner (`src/core/scanner.py`)

Files are identified by their paths (the scanner builds one `FileInfo` per
discovered file; `FileInfo` uses identity equality, which coincides with
path equality for distinct discovered paths).  A duplicate group is the
member list paired with the recorded similarity score.  `cmp` is the
detector's `compare_signatures`, `sigOf` its `compute_signature`, `t` the
configured similarity threshold.

The cooperative flags `is_stopped` / `is_paused` are modelled as constant
booleans: each phase function describes the work performed while the flags
hold those values (the source polls them at the head of each loop
iteration). -/

/-- Group of duplicate files: member paths and the recorded similarity. -/
abbrev Group := List String × ℚ

/-- Phase 1 of `_find_duplicates` (the signature dict): per file, pause
blocks before the next computation and stop breaks the loop, so under a
constantly stopped or paused flag no signature is computed; otherwise every
file with a truthy signature is recorded. -/
def computeSigMap (sigOf : String → Option String) : List String → List (String × String)
  | [] => []
  | f :: fs =>
      match truthy (sigOf f) with
      | some s => (f, s) :: computeSigMap sigOf fs
      | none => computeSigMap sigOf fs

/-- Phase 1 under the cooperative flags. -/
def computeSignaturesPhase (is_stopped is_paused : Bool)
    (sigOf : String → Option String) (files : List String) : List (String × String) :=
  if is_stopped then [] else if is_paused then [] else computeSigMap sigOf files

/-- Insertion-ordered grouping by key (Python `defaultdict(list)` filled in
iteration order). -/
def addToBucket (k f : String) : List (String × List String) → List (String × List String)
  | [] => [(k, [f])]
  | (k', fs) :: rest =>
      if k = k' then (k', fs ++ [f]) :: rest else (k', fs) :: addToBucket k f rest

/-- Auxiliary fold for `groupByKey`. -/
def groupByKeyAux (key : String → Option String)
    (acc : List (String × List String)) : List String → List (String × List String)
  | [] => acc
  | f :: fs =>
      groupByKeyAux key
        (match key f with
         | none => acc
         | some k => addToBucket k f acc) fs

/-- Group a file list by an optional key. -/
def groupByKey (key : String → Option String) (files : List String) :
    List (String × List String) :=
  groupByKeyAux key [] files

/-- Phase 2 of `_find_duplicates`: buckets of identical (truthy) signatures
with at least two members become groups with similarity 1.0. -/
def exactGroups (sigOf : String → Option String) (files : List String) : List Group :=
  (groupByKey (fun f => truthy (sigOf f)) files).filterMap
    (fun p => if 1 < p.2.length then some (p.2, (1 : ℚ)) else none)

/-- Phase 2 under the cooperative flags (the signature buckets are filled
by the phase-1 loop). -/
def exactGroupsPhase (is_stopped is_paused : Bool)
    (sigOf : String → Option String) (files : List String) : List Group :=
  if is_stopped then [] else if is_paused then [] else exactGroups sigOf files

/-- Sorted pair key (`tuple(sorted([path1, path2]))`). -/
def pairKey (a b : String) : String × String :=
  if a ≤ b then (a, b) else (b, a)

/-- State threaded through the pairwise loops of
`_find_similar_pairs_optimized`: the `processed_pairs` set and the mutable
`duplicates` list. -/
structure PairSt where
  processed : List (String × String)
  dups : List Group

/-- Lookup with Python truthiness (`sig = file_signatures.get(path)`
followed by `if not sig:`). -/
def getSig (sigs : List (String × String)) (f : String) : Option String :=
  truthy (lookupStr sigs f)

/-- Lookup with default (`file_signatures.get(f.path, '')`). -/
def getSigD (sigs : List (String × String)) (f : String) : String :=
  (lookupStr sigs f).getD ""

/-- Whether one signature clears the threshold against every member of a
group (the two `all(...)` checks of the strict mutual match). -/
def matchesAll (cmp : String → String → ℚ) (t : ℚ)
    (sigs : List (String × String)) (s : String) (members : List String) : Bool :=
  members.all (fun f => t ≤ cmp s (getSigD sigs f))

/-- Append a file to a member list unless already present
(`if file not in group_files_list: append`). -/
def addMember (m : List String) (f : String) : List String :=
  if f ∈ m then m else m ++ [f]

/-- Search the duplicates list for the first group with members where both
files match every current member; on success the pair is appended there.
Mirrors the `for group_files_list, group_sim in duplicates:` search with
its `len == 0` guard and `break`. -/
def tryJoin (cmp : String → String → ℚ) (t : ℚ) (sigs : List (String × String))
    (sig1 sig2 f1 f2 : String) : List Group → Option (List Group)
  | [] => none
  | g :: gs =>
      if g.1 ≠ [] ∧ matchesAll cmp t sigs sig1 g.1 ∧ matchesAll cmp t sigs sig2 g.1
      then some ((addMember (addMember g.1 f1) f2, g.2) :: gs)
      else (tryJoin cmp t sigs sig1 sig2 f1 f2 gs).map (g :: ·)

/-- Join an existing group, or append a fresh pair group with the pair's
similarity as its score. -/
def joinOrCreate (cmp : String → String → ℚ) (t : ℚ) (sigs : List (String × String))
    (sig1 sig2 f1 f2 : String) (sim : ℚ) (dups : List Group) : List Group :=
  match tryJoin cmp t sigs sig1 sig2 f1 f2 dups with
  | some d => d
  | none => dups ++ [([f1, f2], sim)]

/-- Body of the innermost loop of `_find_similar_pairs_optimized` for one
pair: skip already-processed pairs, pairs with an untruthy second
signature, and identical signatures; otherwise compare, and on clearing the
threshold record the pair and join or create a group. -/
def pairStep (cmp : String → String → ℚ) (t : ℚ) (sigs : List (String × String))
    (f1 sig1 f2 : String) (st : PairSt) : PairSt :=
  if pairKey f1 f2 ∈ st.processed then st
  else
    match getSig sigs f2 with
    | none => st
    | some sig2 =>
        if sig1 = sig2 then st
        else if t ≤ cmp sig1 sig2 then
          ⟨pairKey f1 f2 :: st.processed,
           joinOrCreate cmp t sigs sig1 sig2 f1 f2 (cmp sig1 sig2) st.dups⟩
        else st

/-- Inner loop over `group_files[i+1:]`. -/
def innerLoop (cmp : String → String → ℚ) (t : ℚ) (sigs : List (String × String))
    (f1 sig1 : String) : List String → PairSt → PairSt
  | [], st => st
  | f2 :: rest, st =>
      innerLoop cmp t sigs f1 sig1 rest (pairStep cmp t sigs f1 sig1 f2 st)

/-- Outer loop over the files of one bucket; a file with an untruthy
signature is skipped (`continue`). -/
def bucketLoop (cmp : String → String → ℚ) (t : ℚ) (sigs : List (String × String)) :
    List String → PairSt → PairSt
  | [], st => st
  | f1 :: rest, st =>
      bucketLoop cmp t sigs rest
        (match getSig sigs f1 with
         | none => st
         | some sig1 => innerLoop cmp t sigs f1 sig1 rest st)

/-- Loop over the prefix buckets; buckets with fewer than two files are
skipped. -/
def allBuckets (cmp : String → String → ℚ) (t : ℚ) (sigs : List (String × String)) :
    List (List String) → PairSt → PairSt
  | [], st => st
  | b :: bs, st =>
      allBuckets cmp t sigs bs (if b.length < 2 then st else bucketLoop cmp t sigs b st)

/-- Prefix key for locality-sensitive bucketing: the first 8 characters of
the file's (truthy) signature. -/
def prefixKey (sigs : List (String × String)) (f : String) : Option String :=
  (getSig sigs f).map (fun s => s.take 8)

/-- Core of `_find_similar_pairs_optimized` when the loops run (flags
clear): bucket by signature prefix and run the strict-mutual-match pairing
over every bucket, starting from the exact-match groups. -/
def fuzzyCore (cmp : String → String → ℚ) (t : ℚ) (sigs : List (String × String))
    (files : List String) (dups : List Group) : List Group :=
  let buckets := (groupByKey (prefixKey sigs) files).map (·.2)
  (allBuckets cmp t sigs buckets ⟨[], dups⟩).dups

/-- Model of `_find_similar_pairs_optimized` under the cooperative flags.
The loop bodies poll only `is_stopped` (lines 241 and 249 of
`scanner.py`); `is_paused` does not occur in this method, so a constantly
paused (but not stopped) scan still performs every comparison. -/
def find_similar_pairs_optimized (is_stopped is_paused : Bool)
    (cmp : String → String → ℚ) (t : ℚ) (sigs : List (String × String))
    (files : List String) (dups : List Group) : List Group :=
  if is_stopped then dups else fuzzyCore cmp t sigs files dups

/-- Categories for which `_find_duplicates` runs the fuzzy phase. -/
def fuzzyCategories : List String := ["image", "video", "document", "code"]

/-- Model of `DuplicateScanner._find_duplicates`: compute signatures, emit
exact-match groups, then (for the fuzzy categories) extend the list by the
prefix-bucketed strict-mutual-match pairing. -/
def find_duplicates (is_stopped is_paused : Bool) (category : String)
    (cmp : String → String → ℚ) (t : ℚ) (sigOf : String → Option String)
    (files : List String) : List Group :=
  let sigs := computeSignaturesPhase is_stopped is_paused sigOf files
  let exact := exactGroupsPhase is_stopped is_paused sigOf files
  if category ∈ fuzzyCategories then
    find_similar_pairs_optimized is_stopped is_paused cmp t sigs files exact
  else exact

/-- Model of the per-category save loop of `scan_paths` (`for group_files,
similarity in duplicates: if self.is_stopped: break; ...`): the list of
groups actually handed to the persistence layer. -/
def saveLoop (is_stopped : Bool) : List Group → List Group
  | [] => []
  | g :: gs => if is_stopped then [] else g :: saveLoop is_stopped gs

/-- Control flags of `DuplicateScanner`. -/
structure ScannerFlags where
  is_paused : Bool
  is_stopped : Bool

/-- Model of `DuplicateScanner.pause`. -/
def pauseCall (s : ScannerFlags) : ScannerFlags := ⟨true, s.is_stopped⟩

/-- Model of `DuplicateScanner.resume`. -/
def resumeCall (s : ScannerFlags) : ScannerFlags := ⟨false, s.is_stopped⟩

/-- Model of `DuplicateScanner.stop`: sets `is_stopped` and clears
`is_paused`. -/
def stopCall (_ : ScannerFlags) : ScannerFlags := ⟨false, true⟩

/-- Calls available on the scanner's control surface. -/
inductive ControlCall
  | pauseC
  | resumeC
  | stopC

/-- Apply one control call. -/
def applyCall (s : ScannerFlags) : ControlCall → ScannerFlags
  | .pauseC => pauseCall s
  | .resumeC => resumeCall s
  | .stopC => stopCall s

/-- Apply a sequence of control calls. -/
def applyCalls (s : ScannerFlags) (cs : List ControlCall) : ScannerFlags :=
  cs.foldl applyCall s

/-! ### Predicates used by the statements -/

/-- Pairwise similarity invariant of one group: every (ordered) pair of
members has a present signature and clears the threshold. -/
def GroupOK (cmp : String → String → ℚ) (t : ℚ) (sigs : List (String × String))
    (g : Group) : Prop :=
  ∀ a ∈ g.1, ∀ b ∈ g.1, ∃ sa sb,
    getSig sigs a = some sa ∧ getSig sigs b = some sb ∧ t ≤ cmp sa sb

/-- Pairwise similarity invariant over the whole duplicates list. -/
def DupsOK (cmp : String → String → ℚ) (t : ℚ) (sigs : List (String × String))
    (dups : List Group) : Prop :=
  ∀ g ∈ dups, GroupOK cmp t sigs g

/-- Invariant for the threshold-0 analysis: all groups are nonempty and
every recorded pair is contained in the leading group. -/
def InvZ (st : PairSt) : Prop :=
  (∀ g ∈ st.dups, g.1 ≠ []) ∧
  (∀ pr ∈ st.processed, ∃ g, st.dups[0]? = some g ∧ pr.1 ∈ g.1 ∧ pr.2 ∈ g.1)

/-- Refinement order on duplicates lists: positions are stable, scores are
unchanged, member lists only grow. -/
def DupsLe (d1 d2 : List Group) : Prop :=
  ∀ (j : Nat) (g : Group), d1[j]? = some g →
    ∃ g' : Group, d2[j]? = some g' ∧ g'.2 = g.2 ∧ g.1 ⊆ g'.1

/-- Every member of every group has a present (truthy) signature. -/
def MembersHaveSigs (sigs : List (String × String)) (dups : List Group) : Prop :=
  ∀ g ∈ dups, ∀ x ∈ g.1, (getSig sigs x).isSome

/-- Bit array of a hex hash with junk default (used only to phrase
distances in the statements). -/
def hexBitsD (s : String) : List Bool :=
  (hexToBits s).getD []

/-- Well-formedness of one hex hash of a given length (Boolean, so the
witnesses can discharge it by evaluation). -/
def hexWF (n : Nat) (s : String) : Bool :=
  s.length == n && s.data.all (fun c => (hexVal c).isSome)

/-- Apply a sequence of `set` calls to a `BoundedCache`. -/
def applySets (ops : List (String × String)) (c : BoundedCache) : BoundedCache :=
  ops.foldl (fun c p => c.set p.1 p.2) c

/-! ### Concrete inputs used by witnesses and counterexamples -/

namespace Ex

/-- Image signature: three all-ones 144-bit channel hashes. -/
def sigAllF : String :=
  "ffffffffffffffffffffffffffffffffffff|ffffffffffffffffffffffffffffffffffff|ffffffffffffffffffffffffffffffffffff"

/-- Image signature differing from `sigAllF` in one bit of the third
channel. -/
def sigOneBit : String :=
  "ffffffffffffffffffffffffffffffffffff|ffffffffffffffffffffffffffffffffffff|fffffffffffffffffffffffffffffffffffe"

/-- Image signature differing from `sigAllF` in two bits of the third
channel (and from `sigOneBit` in one). -/
def sigTwoBit : String :=
  "ffffffffffffffffffffffffffffffffffff|ffffffffffffffffffffffffffffffffffff|fffffffffffffffffffffffffffffffffffc"

/-- Four image files: two byte-identical ones and two near-duplicates. -/
def sigOfABCD : String → Option String := fun f =>
  Dedup.lookupStr [("A", sigAllF), ("B", sigAllF), ("C", sigOneBit), ("D", sigTwoBit)] f

/-- Three document files with pairwise distinct signatures sharing the
8-character prefix. -/
def sigOfDocs : String → Option String := fun f =>
  Dedup.lookupStr [("f1", "aaaaaaaa1"), ("f2", "aaaaaaaa2"), ("f3", "aaaaaaaa3")] f

/-- Distinct paths for the cache-growth argument. -/
def pathN (i : Nat) : String := String.mk (List.replicate i 'a')

/-- Two byte-identical documents and one near miss sharing the signature
prefix. -/
def sigOfDocsAB : String → Option String := fun f =>
  Dedup.lookupStr [("A", "aaaaaaaa1"), ("B", "aaaaaaaa1"), ("C", "aaaaaaaa2")] f

/-- Byte streams of three archive files: two readable zero-byte archives
and one whose read raises (permission denied). -/
def rawZip : String → Option (List Nat) := fun f =>
  if f = "a.zip" ∨ f = "b.zip" then some [] else none

/-- The archive detector's signatures of those three files. -/
def sigOfZip : String → Option String := fun f =>
  Dedup.ArchiveDetector.compute_signature (rawZip f)

end Ex

/-! ### Basic lemmas -/

theorem truthy_some {o : Option String} {s : String} (h : truthy o = some s) :
    o = some s ∧ s ≠ "" := by
  cases o with
  | none => simp [truthy] at h
  | some v =>
      simp only [truthy] at h
      split at h
      · exact absurd h (by simp)
      · cases h
        exact ⟨rfl, by assumption⟩

theorem truthy_ne_empty {o : Option String} {s : String} (h : truthy o = some s) :
    s ≠ "" := (truthy_some h).2

theorem lookupStr_mem {α : Type} {l : List (String × α)} {k : String} {v : α}
    (h : lookupStr l k = some v) : (k, v) ∈ l := by
  induction l with
  | nil => simp [lookupStr] at h
  | cons p rest ih =>
      obtain ⟨k', v'⟩ := p
      simp only [lookupStr] at h
      split at h
      · cases h
        subst_vars
        exact List.mem_cons_self _ _
      · exact List.mem_cons_of_mem _ (ih h)

theorem lookupStr_computeSigMap {sigOf : String → Option String}
    {files : List String} {f : String} {s : String}
    (h : lookupStr (computeSigMap sigOf files) f = some s) :
    truthy (sigOf f) = some s := by
  induction files with
  | nil => simp [computeSigMap, lookupStr] at h
  | cons f' fs ih =>
      simp only [computeSigMap] at h
      cases he : truthy (sigOf f') with
      | some s' =>
          rw [he] at h
          simp only [lookupStr] at h
          split at h
          · cases h
            subst_vars
            exact he
          · exact ih h
      | none =>
          rw [he] at h
          exact ih h

theorem computeSigMap_lookup {sigOf : String → Option String}
    {files : List String} {f : String} {s : String}
    (hf : f ∈ files) (h : truthy (sigOf f) = some s) :
    lookupStr (computeSigMap sigOf files) f = some s := by
  induction files with
  | nil => cases hf
  | cons f' fs ih =>
      rcases List.mem_cons.mp hf with rfl | hmem
      · simp [computeSigMap, h, lookupStr]
      · simp only [computeSigMap]
        cases he : truthy (sigOf f') with
        | some s' =>
            simp only [lookupStr]
            split
            · next heq =>
                subst heq
                rw [h] at he
                cases he
                rfl
            · exact ih hmem
        | none => exact ih hmem

theorem getSig_computeSigMap {sigOf : String → Option String}
    {files : List String} {f : String} {s : String}
    (hf : f ∈ files) (h : truthy (sigOf f) = some s) :
    getSig (computeSigMap sigOf files) f = some s := by
  have hl := computeSigMap_lookup hf h
  simp [getSig, hl, truthy, truthy_ne_empty h]

theorem getSig_some_truthy {sigs : List (String × String)} {f s : String}
    (h : getSig sigs f = some s) : lookupStr sigs f = some s :=
  (truthy_some h).1

theorem getSigD_of_getSig {sigs : List (String × String)} {f s : String}
    (h : getSig sigs f = some s) : getSigD sigs f = s := by
  simp [getSigD, getSig_some_truthy h]

theorem mem_addMember {m : List String} {f x : String} :
    x ∈ addMember m f ↔ x ∈ m ∨ x = f := by
  unfold addMember
  split
  · next hf =>
      constructor
      · exact Or.inl
      · rintro (hx | rfl)
        · exact hx
        · exact hf
  · simp [List.mem_append]

theorem subset_addMember (m : List String) (f : String) : m ⊆ addMember m f :=
  fun _ hx => mem_addMember.mpr (Or.inl hx)

theorem self_mem_addMember (m : List String) (f : String) : f ∈ addMember m f :=
  mem_addMember.mpr (Or.inr rfl)

theorem pairKey_cases (a b : String) :
    pairKey a b = (a, b) ∨ pairKey a b = (b, a) := by
  unfold pairKey
  split
  · exact Or.inl rfl
  · exact Or.inr rfl

/-! ### groupByKey lemmas -/

theorem lookupStr_addToBucket_self (k f : String) (acc : List (String × List String)) :
    lookupStr (addToBucket k f acc) k = some ((lookupStr acc k).getD [] ++ [f]) := by
  induction acc with
  | nil => simp [addToBucket, lookupStr]
  | cons p rest ih =>
      obtain ⟨k', fs⟩ := p
      simp only [addToBucket]
      split
      · next hk =>
          subst hk
          simp [lookupStr]
      · next hk =>
          simp [lookupStr, hk, ih]

theorem lookupStr_addToBucket_ne {k k' : String} (f : String)
    (acc : List (String × List String)) (h : k' ≠ k) :
    lookupStr (addToBucket k f acc) k' = lookupStr acc k' := by
  induction acc with
  | nil => simp [addToBucket, lookupStr, h]
  | cons p rest ih =>
      obtain ⟨k'', fs⟩ := p
      simp only [addToBucket]
      split
      · next hk =>
          subst hk
          simp [lookupStr, h]
      · simp only [lookupStr]
        split
        · rfl
        · exact ih

theorem addToBucket_key_sound {K : String → Option String} {k f : String}
    {acc : List (String × List String)}
    (hacc : ∀ p ∈ acc, ∀ x ∈ p.2, K x = some p.1) (hf : K f = some k) :
    ∀ p ∈ addToBucket k f acc, ∀ x ∈ p.2, K x = some p.1 := by
  induction acc with
  | nil =>
      intro p hp x hx
      simp only [addToBucket, List.mem_singleton] at hp
      subst hp
      simp only [List.mem_singleton] at hx
      subst hx
      exact hf
  | cons q rest ih =>
      obtain ⟨k', fs⟩ := q
      intro p hp x hx
      simp only [addToBucket] at hp
      split at hp
      · next hk =>
          subst hk
          rcases List.mem_cons.mp hp with rfl | hmem
          · rcases List.mem_append.mp hx with hx' | hx'
            · exact hacc (k, fs) (List.mem_cons_self _ _) x hx'
            · simp only [List.mem_singleton] at hx'
              subst hx'
              exact hf
          · exact hacc p (List.mem_cons_of_mem _ hmem) x hx
      · rcases List.mem_cons.mp hp with rfl | hmem
        · exact hacc (k', fs) (List.mem_cons_self _ _) x hx
        · exact ih (fun q hq => hacc q (List.mem_cons_of_mem _ hq)) p hmem x hx

theorem addToBucket_pred {P : String → Prop} {k f : String}
    {acc : List (String × List String)}
    (hacc : ∀ p ∈ acc, ∀ x ∈ p.2, P x) (hf : P f) :
    ∀ p ∈ addToBucket k f acc, ∀ x ∈ p.2, P x := by
  induction acc with
  | nil =>
      intro p hp x hx
      simp only [addToBucket, List.mem_singleton] at hp
      subst hp
      simp only [List.mem_singleton] at hx
      subst hx
      exact hf
  | cons q rest ih =>
      obtain ⟨k', fs⟩ := q
      intro p hp x hx
      simp only [addToBucket] at hp
      split at hp
      · rcases List.mem_cons.mp hp with rfl | hmem
        · rcases List.mem_append.mp hx with hx' | hx'
          · exact hacc (k', fs) (List.mem_cons_self _ _) x hx'
          · simp only [List.mem_singleton] at hx'
            subst hx'
            exact hf
        · exact hacc p (List.mem_cons_of_mem _ hmem) x hx
      · rcases List.mem_cons.mp hp with rfl | hmem
        · exact hacc (k', fs) (List.mem_cons_self _ _) x hx
        · exact ih (fun q hq => hacc q (List.mem_cons_of_mem _ hq)) p hmem x hx

theorem groupByKeyAux_key_sound {K : String → Option String}
    {acc : List (String × List String)} {fs : List String}
    (hacc : ∀ p ∈ acc, ∀ x ∈ p.2, K x = some p.1) :
    ∀ p ∈ groupByKeyAux K acc fs, ∀ x ∈ p.2, K x = some p.1 := by
  induction fs generalizing acc with
  | nil => exact hacc
  | cons f rest ih =>
      simp only [groupByKeyAux]
      cases hk : K f with
      | none => simpa [hk] using ih hacc
      | some k =>
          simp only [hk]
          exact ih (addToBucket_key_sound hacc hk)

theorem groupByKeyAux_pred {K : String → Option String} {P : String → Prop}
    {acc : List (String × List String)} {fs : List String}
    (hacc : ∀ p ∈ acc, ∀ x ∈ p.2, P x) (hfs : ∀ f ∈ fs, P f) :
    ∀ p ∈ groupByKeyAux K acc fs, ∀ x ∈ p.2, P x := by
  induction fs generalizing acc with
  | nil => exact hacc
  | cons f rest ih =>
      simp only [groupByKeyAux]
      cases hk : K f with
      | none =>
          simpa [hk] using ih hacc (fun x hx => hfs x (List.mem_cons_of_mem _ hx))
      | some k =>
          simp only [hk]
          exact ih (addToBucket_pred hacc (hfs f (List.mem_cons_self _ _)))
            (fun x hx => hfs x (List.mem_cons_of_mem _ hx))

theorem lookupStr_groupByKeyAux_mono {K : String → Option String}
    {acc : List (String × List String)} {fs : List String} {k : String}
    {ms : List String} (h : lookupStr acc k = some ms) :
    ∃ ms', lookupStr (groupByKeyAux K acc fs) k = some ms' ∧ ms ⊆ ms' := by
  induction fs generalizing acc ms with
  | nil => exact ⟨ms, h, fun _ hx => hx⟩
  | cons f rest ih =>
      simp only [groupByKeyAux]
      cases hk : K f with
      | none => exact ih h
      | some k' =>
          simp only [hk]
          by_cases hkk : k = k'
          · subst hkk
            have hself := lookupStr_addToBucket_self k f acc
            rw [h] at hself
            obtain ⟨ms', hm, hsub⟩ := ih hself
            exact ⟨ms', hm, fun x hx => hsub (List.mem_append.mpr (Or.inl hx))⟩
          · have := @lookupStr_addToBucket_ne k' k f acc hkk
            rw [h] at this
            exact ih this

theorem groupByKeyAux_complete {K : String → Option String}
    {acc : List (String × List String)} {fs : List String} {f k : String}
    (hk : K f = some k) (hf : f ∈ fs) :
    ∃ ms, lookupStr (groupByKeyAux K acc fs) k = some ms ∧ f ∈ ms := by
  induction fs generalizing acc with
  | nil => cases hf
  | cons f' rest ih =>
      rcases List.mem_cons.mp hf with rfl | hmem
      · simp only [groupByKeyAux, hk]
        have hself := lookupStr_addToBucket_self k f acc
        obtain ⟨ms', hm, hsub⟩ := @lookupStr_groupByKeyAux_mono K _ rest _ _ hself
        exact ⟨ms', hm, hsub (List.mem_append.mpr (Or.inr (List.mem_singleton.mpr rfl)))⟩
      · simp only [groupByKeyAux]
        cases hk' : K f' with
        | none => exact ih hmem
        | some k'' =>
            simp only
            exact ih hmem

/-! ### Strict mutual match: the pairwise invariant is preserved -/

theorem matchesAll_spec {cmp : String → String → ℚ} {t : ℚ}
    {sigs : List (String × String)} {s : String} {members : List String}
    (h : matchesAll cmp t sigs s members = true) :
    ∀ f ∈ members, t ≤ cmp s (getSigD sigs f) := by
  simpa [matchesAll, List.all_eq_true, decide_eq_true_eq] using h

theorem mem_addMember2 {m : List String} {f1 f2 x : String} :
    x ∈ addMember (addMember m f1) f2 ↔ x ∈ m ∨ x = f1 ∨ x = f2 := by
  simp [mem_addMember, or_assoc]

theorem groupOK_self_sig {cmp : String → String → ℚ} {t : ℚ}
    {sigs : List (String × String)} {g : Group}
    (hg : GroupOK cmp t sigs g) {a : String} (ha : a ∈ g.1) :
    ∃ sa, getSig sigs a = some sa := by
  obtain ⟨sa, _, h1, _, _⟩ := hg a ha a ha
  exact ⟨sa, h1⟩

theorem joined_group_ok {cmp : String → String → ℚ} {t : ℚ}
    {sigs : List (String × String)} {g : Group} {sig1 sig2 f1 f2 : String}
    (hsym : ∀ a b, cmp a b = cmp b a) (hrefl : ∀ s, t ≤ cmp s s)
    (h1 : getSig sigs f1 = some sig1) (h2 : getSig sigs f2 = some sig2)
    (h12 : t ≤ cmp sig1 sig2)
    (hg : GroupOK cmp t sigs g)
    (hm1 : matchesAll cmp t sigs sig1 g.1 = true)
    (hm2 : matchesAll cmp t sigs sig2 g.1 = true) :
    GroupOK cmp t sigs (addMember (addMember g.1 f1) f2, g.2) := by
  have hma1 := matchesAll_spec hm1
  have hma2 := matchesAll_spec hm2
  intro a ha b hb
  simp only at ha hb
  rcases mem_addMember2.mp ha with ha' | rfl | rfl <;>
    rcases mem_addMember2.mp hb with hb' | rfl | rfl
  · exact hg a ha' b hb'
  · obtain ⟨sa, hsa⟩ := groupOK_self_sig hg ha'
    refine ⟨sa, sig1, hsa, h1, ?_⟩
    have := hma1 a ha'
    rw [getSigD_of_getSig hsa] at this
    rw [hsym]
    exact this
  · obtain ⟨sa, hsa⟩ := groupOK_self_sig hg ha'
    refine ⟨sa, sig2, hsa, h2, ?_⟩
    have := hma2 a ha'
    rw [getSigD_of_getSig hsa] at this
    rw [hsym]
    exact this
  · obtain ⟨sb, hsb⟩ := groupOK_self_sig hg hb'
    refine ⟨sig1, sb, h1, hsb, ?_⟩
    have := hma1 b hb'
    rwa [getSigD_of_getSig hsb] at this
  · exact ⟨sig1, sig1, h1, h1, hrefl sig1⟩
  · exact ⟨sig1, sig2, h1, h2, h12⟩
  · obtain ⟨sb, hsb⟩ := groupOK_self_sig hg hb'
    refine ⟨sig2, sb, h2, hsb, ?_⟩
    have := hma2 b hb'
    rwa [getSigD_of_getSig hsb] at this
  · exact ⟨sig2, sig1, h2, h1, by rw [hsym]; exact h12⟩
  · exact ⟨sig2, sig2, h2, h2, hrefl sig2⟩

theorem tryJoin_ok {cmp : String → String → ℚ} {t : ℚ}
    {sigs : List (String × String)} {sig1 sig2 f1 f2 : String}
    {dups d' : List Group}
    (hsym : ∀ a b, cmp a b = cmp b a) (hrefl : ∀ s, t ≤ cmp s s)
    (h1 : getSig sigs f1 = some sig1) (h2 : getSig sigs f2 = some sig2)
    (h12 : t ≤ cmp sig1 sig2)
    (hok : DupsOK cmp t sigs dups)
    (h : tryJoin cmp t sigs sig1 sig2 f1 f2 dups = some d') :
    DupsOK cmp t sigs d' := by
  induction dups generalizing d' with
  | nil => simp [tryJoin] at h
  | cons g gs ih =>
      simp only [tryJoin] at h
      split at h
      · next hc =>
          cases h
          intro g' hg'
          rcases List.mem_cons.mp hg' with rfl | hmem
          · exact joined_group_ok hsym hrefl h1 h2 h12
              (hok g (List.mem_cons_self _ _)) hc.2.1 hc.2.2
          · exact hok g' (List.mem_cons_of_mem _ hmem)
      · obtain ⟨d'', hd'', rfl⟩ := Option.map_eq_some'.mp h
        intro g' hg'
        rcases List.mem_cons.mp hg' with rfl | hmem
        · exact hok g' (List.mem_cons_self _ _)
        · exact ih (fun q hq => hok q (List.mem_cons_of_mem _ hq)) hd'' g' hmem

theorem joinOrCreate_ok {cmp : String → String → ℚ} {t : ℚ}
    {sigs : List (String × String)} {sig1 sig2 f1 f2 : String} {sim : ℚ}
    {dups : List Group}
    (hsym : ∀ a b, cmp a b = cmp b a) (hrefl : ∀ s, t ≤ cmp s s)
    (h1 : getSig sigs f1 = some sig1) (h2 : getSig sigs f2 = some sig2)
    (h12 : t ≤ cmp sig1 sig2)
    (hok : DupsOK cmp t sigs dups) :
    DupsOK cmp t sigs (joinOrCreate cmp t sigs sig1 sig2 f1 f2 sim dups) := by
  unfold joinOrCreate
  cases hj : tryJoin cmp t sigs sig1 sig2 f1 f2 dups with
  | some d => exact tryJoin_ok hsym hrefl h1 h2 h12 hok hj
  | none =>
      intro g hg
      rcases List.mem_append.mp hg with hmem | hmem
      · exact hok g hmem
      · simp only [List.mem_singleton] at hmem
        subst hmem
        intro a ha b hb
        simp only [List.mem_cons, List.mem_singleton, List.not_mem_nil, or_false] at ha hb
        rcases ha with rfl | rfl <;> rcases hb with rfl | rfl
        · exact ⟨sig1, sig1, h1, h1, hrefl sig1⟩
        · exact ⟨sig1, sig2, h1, h2, h12⟩
        · exact ⟨sig2, sig1, h2, h1, by rw [hsym]; exact h12⟩
        · exact ⟨sig2, sig2, h2, h2, hrefl sig2⟩

theorem addMember_ne_nil (m : List String) (f : String) : addMember m f ≠ [] := by
  unfold addMember
  split
  · next hf =>
      intro h
      subst h
      cases hf
  · simp

/-! ### Characterizations of one pair step -/

theorem pairStep_skip_processed {cmp : String → String → ℚ} {t : ℚ}
    {sigs : List (String × String)} {f1 sig1 f2 : String} {st : PairSt}
    (hpk : pairKey f1 f2 ∈ st.processed) :
    pairStep cmp t sigs f1 sig1 f2 st = st := by
  simp [pairStep, hpk]

theorem pairStep_skip_nosig {cmp : String → String → ℚ} {t : ℚ}
    {sigs : List (String × String)} {f1 sig1 f2 : String} {st : PairSt}
    (h2 : getSig sigs f2 = none) :
    pairStep cmp t sigs f1 sig1 f2 st = st := by
  simp [pairStep, h2]

theorem pairStep_skip_eq {cmp : String → String → ℚ} {t : ℚ}
    {sigs : List (String × String)} {f1 sig1 f2 sig2 : String} {st : PairSt}
    (h2 : getSig sigs f2 = some sig2) (he : sig1 = sig2) :
    pairStep cmp t sigs f1 sig1 f2 st = st := by
  simp [pairStep, h2, he]

theorem pairStep_skip_low {cmp : String → String → ℚ} {t : ℚ}
    {sigs : List (String × String)} {f1 sig1 f2 sig2 : String} {st : PairSt}
    (h2 : getSig sigs f2 = some sig2) (he : ¬ sig1 = sig2)
    (hlow : ¬ t ≤ cmp sig1 sig2) :
    pairStep cmp t sigs f1 sig1 f2 st = st := by
  simp [pairStep, h2, he, hlow]

theorem pairStep_join_eq {cmp : String → String → ℚ} {t : ℚ}
    {sigs : List (String × String)} {f1 sig1 f2 sig2 : String} {st : PairSt}
    (hpk : pairKey f1 f2 ∉ st.processed) (h2 : getSig sigs f2 = some sig2)
    (he : ¬ sig1 = sig2) (hsim : t ≤ cmp sig1 sig2) :
    pairStep cmp t sigs f1 sig1 f2 st =
      ⟨pairKey f1 f2 :: st.processed,
       joinOrCreate cmp t sigs sig1 sig2 f1 f2 (cmp sig1 sig2) st.dups⟩ := by
  simp [pairStep, hpk, h2, he, hsim]

theorem pairStep_ok {cmp : String → String → ℚ} {t : ℚ}
    {sigs : List (String × String)} {f1 sig1 f2 : String} {st : PairSt}
    (hsym : ∀ a b, cmp a b = cmp b a) (hrefl : ∀ s, t ≤ cmp s s)
    (h1 : getSig sigs f1 = some sig1)
    (hok : DupsOK cmp t sigs st.dups) :
    DupsOK cmp t sigs (pairStep cmp t sigs f1 sig1 f2 st).dups := by
  unfold pairStep
  by_cases hpk : pairKey f1 f2 ∈ st.processed
  · simp only [hpk, if_true]
    exact hok
  · simp only [hpk, if_false]
    cases h2 : getSig sigs f2 with
    | none => exact hok
    | some sig2 =>
        by_cases he : sig1 = sig2
        · simp only [he, if_true]
          exact hok
        · simp only [he, if_false]
          by_cases hsim : t ≤ cmp sig1 sig2
          · simp only [hsim, if_true]
            exact joinOrCreate_ok hsym hrefl h1 h2 hsim hok
          · simp only [hsim, if_false]
            exact hok

theorem innerLoop_ok {cmp : String → String → ℚ} {t : ℚ}
    {sigs : List (String × String)} {f1 sig1 : String} {rest : List String}
    {st : PairSt}
    (hsym : ∀ a b, cmp a b = cmp b a) (hrefl : ∀ s, t ≤ cmp s s)
    (h1 : getSig sigs f1 = some sig1)
    (hok : DupsOK cmp t sigs st.dups) :
    DupsOK cmp t sigs (innerLoop cmp t sigs f1 sig1 rest st).dups := by
  induction rest generalizing st with
  | nil => exact hok
  | cons f2 rest' ih =>
      exact ih (pairStep_ok hsym hrefl h1 hok)

theorem bucketLoop_ok {cmp : String → String → ℚ} {t : ℚ}
    {sigs : List (String × String)} {b : List String} {st : PairSt}
    (hsym : ∀ a b, cmp a b = cmp b a) (hrefl : ∀ s, t ≤ cmp s s)
    (hok : DupsOK cmp t sigs st.dups) :
    DupsOK cmp t sigs (bucketLoop cmp t sigs b st).dups := by
  induction b generalizing st with
  | nil => exact hok
  | cons f1 rest ih =>
      simp only [bucketLoop]
      cases h1 : getSig sigs f1 with
      | none => exact ih hok
      | some sig1 => exact ih (innerLoop_ok hsym hrefl h1 hok)

theorem allBuckets_ok {cmp : String → String → ℚ} {t : ℚ}
    {sigs : List (String × String)} {bs : List (List String)} {st : PairSt}
    (hsym : ∀ a b, cmp a b = cmp b a) (hrefl : ∀ s, t ≤ cmp s s)
    (hok : DupsOK cmp t sigs st.dups) :
    DupsOK cmp t sigs (allBuckets cmp t sigs bs st).dups := by
  induction bs generalizing st with
  | nil => exact hok
  | cons b bs' ih =>
      simp only [allBuckets]
      split
      · exact ih hok
      · exact ih (bucketLoop_ok hsym hrefl hok)

theorem fuzzyCore_ok {cmp : String → String → ℚ} {t : ℚ}
    {sigs : List (String × String)} {files : List String} {dups : List Group}
    (hsym : ∀ a b, cmp a b = cmp b a) (hrefl : ∀ s, t ≤ cmp s s)
    (hok : DupsOK cmp t sigs dups) :
    DupsOK cmp t sigs (fuzzyCore cmp t sigs files dups) := by
  unfold fuzzyCore
  exact allBuckets_ok hsym hrefl hok

/-! ### Monotonicity: positions, scores and members of existing groups -/

theorem getElem?_append_left {α : Type} {l : List α} (x : α) {j : Nat} {g : α}
    (h : l[j]? = some g) : (l ++ [x])[j]? = some g := by
  induction l generalizing j with
  | nil => simp at h
  | cons a rest ih =>
      cases j with
      | zero => simpa using h
      | succ j' =>
          simp only [List.cons_append, List.getElem?_cons_succ] at h ⊢
          exact ih h

theorem dupsLe_refl (d : List Group) : DupsLe d d :=
  fun _ g h => ⟨g, h, rfl, fun _ hx => hx⟩

theorem dupsLe_trans {d1 d2 d3 : List Group} (h12 : DupsLe d1 d2)
    (h23 : DupsLe d2 d3) : DupsLe d1 d3 := by
  intro j g h
  obtain ⟨g', hg', hs', hm'⟩ := h12 j g h
  obtain ⟨g'', hg'', hs'', hm''⟩ := h23 j g' hg'
  exact ⟨g'', hg'', hs''.trans hs', fun x hx => hm'' (hm' hx)⟩

theorem tryJoin_mono {cmp : String → String → ℚ} {t : ℚ}
    {sigs : List (String × String)} {sig1 sig2 f1 f2 : String}
    {dups d' : List Group}
    (h : tryJoin cmp t sigs sig1 sig2 f1 f2 dups = some d') :
    DupsLe dups d' := by
  induction dups generalizing d' with
  | nil => simp [tryJoin] at h
  | cons g0 gs ih =>
      simp only [tryJoin] at h
      split at h
      · cases h
        intro j g hj
        cases j with
        | zero =>
            simp only [List.getElem?_cons_zero] at hj
            cases hj
            exact ⟨(addMember (addMember g0.1 f1) f2, g0.2), by simp, rfl,
              fun x hx => subset_addMember _ _ (subset_addMember _ _ hx)⟩
        | succ j' =>
            simp only [List.getElem?_cons_succ] at hj ⊢
            exact ⟨g, hj, rfl, fun _ hx => hx⟩
      · obtain ⟨d'', hd'', rfl⟩ := Option.map_eq_some'.mp h
        intro j g hj
        cases j with
        | zero =>
            simp only [List.getElem?_cons_zero] at hj ⊢
            cases hj
            exact ⟨g0, rfl, rfl, fun _ hx => hx⟩
        | succ j' =>
            simp only [List.getElem?_cons_succ] at hj ⊢
            exact ih hd'' j' g hj

theorem joinOrCreate_mono {cmp : String → String → ℚ} {t : ℚ}
    {sigs : List (String × String)} {sig1 sig2 f1 f2 : String} {sim : ℚ}
    {dups : List Group} :
    DupsLe dups (joinOrCreate cmp t sigs sig1 sig2 f1 f2 sim dups) := by
  unfold joinOrCreate
  cases hj : tryJoin cmp t sigs sig1 sig2 f1 f2 dups with
  | some d => exact tryJoin_mono hj
  | none =>
      intro j g h
      exact ⟨g, getElem?_append_left _ h, rfl, fun _ hx => hx⟩

theorem pairStep_mono {cmp : String → String → ℚ} {t : ℚ}
    {sigs : List (String × String)} {f1 sig1 f2 : String} {st : PairSt} :
    DupsLe st.dups (pairStep cmp t sigs f1 sig1 f2 st).dups := by
  unfold pairStep
  by_cases hpk : pairKey f1 f2 ∈ st.processed
  · simp only [hpk, if_true]
    exact dupsLe_refl _
  · simp only [hpk, if_false]
    cases h2 : getSig sigs f2 with
    | none => exact dupsLe_refl _
    | some sig2 =>
        by_cases he : sig1 = sig2
        · simp only [he, if_true]
          exact dupsLe_refl _
        · simp only [he, if_false]
          by_cases hsim : t ≤ cmp sig1 sig2
          · simp only [hsim, if_true]
            exact joinOrCreate_mono
          · simp only [hsim, if_false]
            exact dupsLe_refl _

theorem innerLoop_mono {cmp : String → String → ℚ} {t : ℚ}
    {sigs : List (String × String)} {f1 sig1 : String} {rest : List String}
    {st : PairSt} :
    DupsLe st.dups (innerLoop cmp t sigs f1 sig1 rest st).dups := by
  induction rest generalizing st with
  | nil => exact dupsLe_refl _
  | cons f2 rest' ih => exact dupsLe_trans pairStep_mono ih

theorem bucketLoop_mono {cmp : String → String → ℚ} {t : ℚ}
    {sigs : List (String × String)} {b : List String} {st : PairSt} :
    DupsLe st.dups (bucketLoop cmp t sigs b st).dups := by
  induction b generalizing st with
  | nil => exact dupsLe_refl _
  | cons f1 rest ih =>
      simp only [bucketLoop]
      cases h1 : getSig sigs f1 with
      | none => exact ih
      | some sig1 => exact dupsLe_trans innerLoop_mono ih

theorem allBuckets_mono {cmp : String → String → ℚ} {t : ℚ}
    {sigs : List (String × String)} {bs : List (List String)} {st : PairSt} :
    DupsLe st.dups (allBuckets cmp t sigs bs st).dups := by
  induction bs generalizing st with
  | nil => exact dupsLe_refl _
  | cons b bs' ih =>
      simp only [allBuckets]
      split
      · exact ih
      · exact dupsLe_trans bucketLoop_mono ih

theorem fuzzyCore_mono {cmp : String → String → ℚ} {t : ℚ}
    {sigs : List (String × String)} {files : List String} {dups : List Group} :
    DupsLe dups (fuzzyCore cmp t sigs files dups) := by
  unfold fuzzyCore
  exact @allBuckets_mono cmp t sigs _ ⟨[], dups⟩

/-! ### No-op of the fuzzy phase under a separating threshold -/

theorem pairStep_noop {cmp : String → String → ℚ} {t : ℚ}
    {sigs : List (String × String)} {f1 sig1 f2 : String} {st : PairSt}
    (hlt : ∀ a b, a ≠ b → cmp a b < t) :
    pairStep cmp t sigs f1 sig1 f2 st = st := by
  unfold pairStep
  by_cases hpk : pairKey f1 f2 ∈ st.processed
  · simp [hpk]
  · simp only [hpk, if_false]
    cases h2 : getSig sigs f2 with
    | none => rfl
    | some sig2 =>
        by_cases he : sig1 = sig2
        · simp [he]
        · simp [he, not_le.mpr (hlt _ _ he)]

theorem innerLoop_noop {cmp : String → String → ℚ} {t : ℚ}
    {sigs : List (String × String)} {f1 sig1 : String} {rest : List String}
    {st : PairSt} (hlt : ∀ a b, a ≠ b → cmp a b < t) :
    innerLoop cmp t sigs f1 sig1 rest st = st := by
  induction rest generalizing st with
  | nil => rfl
  | cons f2 rest' ih =>
      simp only [innerLoop, pairStep_noop hlt]
      exact ih

theorem bucketLoop_noop {cmp : String → String → ℚ} {t : ℚ}
    {sigs : List (String × String)} {b : List String} {st : PairSt}
    (hlt : ∀ a b, a ≠ b → cmp a b < t) :
    bucketLoop cmp t sigs b st = st := by
  induction b generalizing st with
  | nil => rfl
  | cons f1 rest ih =>
      simp only [bucketLoop]
      cases h1 : getSig sigs f1 with
      | none => exact ih
      | some sig1 =>
          simp only [innerLoop_noop hlt]
          exact ih

theorem allBuckets_noop {cmp : String → String → ℚ} {t : ℚ}
    {sigs : List (String × String)} {bs : List (List String)} {st : PairSt}
    (hlt : ∀ a b, a ≠ b → cmp a b < t) :
    allBuckets cmp t sigs bs st = st := by
  induction bs generalizing st with
  | nil => rfl
  | cons b bs' ih =>
      simp only [allBuckets]
      split
      · exact ih
      · simp only [bucketLoop_noop hlt]
        exact ih

theorem fuzzyCore_noop {cmp : String → String → ℚ} {t : ℚ}
    {sigs : List (String × String)} {files : List String} {dups : List Group}
    (hlt : ∀ a b, a ≠ b → cmp a b < t) :
    fuzzyCore cmp t sigs files dups = dups := by
  unfold fuzzyCore
  simp [allBuckets_noop hlt]

/-! ### Members of groups always carry signatures -/

theorem tryJoin_sigs {cmp : String → String → ℚ} {t : ℚ}
    {sigs : List (String × String)} {sig1 sig2 f1 f2 : String}
    {dups d' : List Group}
    (h1 : (getSig sigs f1).isSome) (h2 : (getSig sigs f2).isSome)
    (hok : MembersHaveSigs sigs dups)
    (h : tryJoin cmp t sigs sig1 sig2 f1 f2 dups = some d') :
    MembersHaveSigs sigs d' := by
  induction dups generalizing d' with
  | nil => simp [tryJoin] at h
  | cons g0 gs ih =>
      simp only [tryJoin] at h
      split at h
      · cases h
        intro g hg x hx
        rcases List.mem_cons.mp hg with rfl | hmem
        · rcases mem_addMember2.mp hx with hx' | rfl | rfl
          · exact hok g0 (List.mem_cons_self _ _) x hx'
          · exact h1
          · exact h2
        · exact hok g (List.mem_cons_of_mem _ hmem) x hx
      · obtain ⟨d'', hd'', rfl⟩ := Option.map_eq_some'.mp h
        intro g hg x hx
        rcases List.mem_cons.mp hg with rfl | hmem
        · exact hok g (List.mem_cons_self _ _) x hx
        · exact ih (fun q hq => hok q (List.mem_cons_of_mem _ hq)) hd'' g hmem x hx

theorem joinOrCreate_sigs {cmp : String → String → ℚ} {t : ℚ}
    {sigs : List (String × String)} {sig1 sig2 f1 f2 : String} {sim : ℚ}
    {dups : List Group}
    (h1 : (getSig sigs f1).isSome) (h2 : (getSig sigs f2).isSome)
    (hok : MembersHaveSigs sigs dups) :
    MembersHaveSigs sigs (joinOrCreate cmp t sigs sig1 sig2 f1 f2 sim dups) := by
  unfold joinOrCreate
  cases hj : tryJoin cmp t sigs sig1 sig2 f1 f2 dups with
  | some d => exact tryJoin_sigs h1 h2 hok hj
  | none =>
      intro g hg x hx
      rcases List.mem_append.mp hg with hmem | hmem
      · exact hok g hmem x hx
      · simp only [List.mem_singleton] at hmem
        subst hmem
        simp only [List.mem_cons, List.mem_singleton, List.not_mem_nil, or_false] at hx
        rcases hx with rfl | rfl
        · exact h1
        · exact h2

theorem pairStep_sigs {cmp : String → String → ℚ} {t : ℚ}
    {sigs : List (String × String)} {f1 sig1 f2 : String} {st : PairSt}
    (h1 : (getSig sigs f1).isSome)
    (hok : MembersHaveSigs sigs st.dups) :
    MembersHaveSigs sigs (pairStep cmp t sigs f1 sig1 f2 st).dups := by
  unfold pairStep
  by_cases hpk : pairKey f1 f2 ∈ st.processed
  · simpa [hpk] using hok
  · simp only [hpk, if_false]
    cases h2 : getSig sigs f2 with
    | none => exact hok
    | some sig2 =>
        by_cases he : sig1 = sig2
        · simpa [he] using hok
        · simp only [he, if_false]
          by_cases hsim : t ≤ cmp sig1 sig2
          · simp only [hsim, if_true]
            exact joinOrCreate_sigs h1 (by simp [h2]) hok
          · simpa [hsim] using hok

theorem innerLoop_sigs {cmp : String → String → ℚ} {t : ℚ}
    {sigs : List (String × String)} {f1 sig1 : String} {rest : List String}
    {st : PairSt}
    (h1 : (getSig sigs f1).isSome)
    (hok : MembersHaveSigs sigs st.dups) :
    MembersHaveSigs sigs (innerLoop cmp t sigs f1 sig1 rest st).dups := by
  induction rest generalizing st with
  | nil => exact hok
  | cons f2 rest' ih => exact ih (pairStep_sigs h1 hok)

theorem bucketLoop_sigs {cmp : String → String → ℚ} {t : ℚ}
    {sigs : List (String × String)} {b : List String} {st : PairSt}
    (hok : MembersHaveSigs sigs st.dups) :
    MembersHaveSigs sigs (bucketLoop cmp t sigs b st).dups := by
  induction b generalizing st with
  | nil => exact hok
  | cons f1 rest ih =>
      simp only [bucketLoop]
      cases h1 : getSig sigs f1 with
      | none => exact ih hok
      | some sig1 => exact ih (innerLoop_sigs (by simp [h1]) hok)

theorem allBuckets_sigs {cmp : String → String → ℚ} {t : ℚ}
    {sigs : List (String × String)} {bs : List (List String)} {st : PairSt}
    (hok : MembersHaveSigs sigs st.dups) :
    MembersHaveSigs sigs (allBuckets cmp t sigs bs st).dups := by
  induction bs generalizing st with
  | nil => exact hok
  | cons b bs' ih =>
      simp only [allBuckets]
      split
      · exact ih hok
      · exact ih (bucketLoop_sigs hok)

theorem fuzzyCore_sigs {cmp : String → String → ℚ} {t : ℚ}
    {sigs : List (String × String)} {files : List String} {dups : List Group}
    (hok : MembersHaveSigs sigs dups) :
    MembersHaveSigs sigs (fuzzyCore cmp t sigs files dups) := by
  unfold fuzzyCore
  exact allBuckets_sigs hok

/-! ### Behavior at threshold zero: everything in a bucket merges into the
leading group -/

theorem matchesAll_nonneg {cmp : String → String → ℚ}
    {sigs : List (String × String)} {s : String} {m : List String}
    (h0 : ∀ a b, 0 ≤ cmp a b) :
    matchesAll cmp 0 sigs s m = true := by
  simp only [matchesAll, List.all_eq_true, decide_eq_true_eq]
  intro f _
  exact h0 _ _

theorem two_le_length_of_mem_ne {b : List String} {x y : String}
    (hx : x ∈ b) (hy : y ∈ b) (hne : x ≠ y) : 2 ≤ b.length := by
  cases b with
  | nil => cases hx
  | cons a rest =>
      cases rest with
      | nil =>
          simp only [List.mem_singleton] at hx hy
          exact absurd (hx.trans hy.symm) hne
      | cons a' rest' => simp

theorem tryJoin_nonempty {cmp : String → String → ℚ} {t : ℚ}
    {sigs : List (String × String)} {sig1 sig2 f1 f2 : String}
    {dups d' : List Group}
    (hne : ∀ g ∈ dups, g.1 ≠ [])
    (h : tryJoin cmp t sigs sig1 sig2 f1 f2 dups = some d') :
    ∀ g ∈ d', g.1 ≠ [] := by
  induction dups generalizing d' with
  | nil => simp [tryJoin] at h
  | cons g0 gs ih =>
      simp only [tryJoin] at h
      split at h
      · cases h
        intro g hg
        rcases List.mem_cons.mp hg with rfl | hmem
        · exact addMember_ne_nil _ _
        · exact hne g (List.mem_cons_of_mem _ hmem)
      · obtain ⟨d'', hd'', rfl⟩ := Option.map_eq_some'.mp h
        intro g hg
        rcases List.mem_cons.mp hg with rfl | hmem
        · exact hne g (List.mem_cons_self _ _)
        · exact ih (fun q hq => hne q (List.mem_cons_of_mem _ hq)) hd'' g hmem

theorem joinOrCreate_nonempty {cmp : String → String → ℚ} {t : ℚ}
    {sigs : List (String × String)} {sig1 sig2 f1 f2 : String} {sim : ℚ}
    {dups : List Group}
    (hne : ∀ g ∈ dups, g.1 ≠ []) :
    ∀ g ∈ joinOrCreate cmp t sigs sig1 sig2 f1 f2 sim dups, g.1 ≠ [] := by
  unfold joinOrCreate
  cases hj : tryJoin cmp t sigs sig1 sig2 f1 f2 dups with
  | some d => exact tryJoin_nonempty hne hj
  | none =>
      intro g hg
      rcases List.mem_append.mp hg with hmem | hmem
      · exact hne g hmem
      · simp only [List.mem_singleton] at hmem
        subst hmem
        simp

theorem joinOrCreate_zero_cons {cmp : String → String → ℚ}
    {sigs : List (String × String)} {sig1 sig2 f1 f2 : String} {sim : ℚ}
    {g0 : Group} {gs : List Group}
    (h0 : ∀ a b, 0 ≤ cmp a b) (hne0 : g0.1 ≠ []) :
    joinOrCreate cmp 0 sigs sig1 sig2 f1 f2 sim (g0 :: gs) =
      (addMember (addMember g0.1 f1) f2, g0.2) :: gs := by
  unfold joinOrCreate tryJoin
  rw [if_pos ⟨hne0, matchesAll_nonneg h0, matchesAll_nonneg h0⟩]

theorem pairStep_zero {cmp : String → String → ℚ}
    {sigs : List (String × String)} {f1 sig1 f2 : String} {st : PairSt}
    (h0 : ∀ a b, 0 ≤ cmp a b) (hinv : InvZ st) :
    InvZ (pairStep cmp 0 sigs f1 sig1 f2 st) ∧
    (∀ sig2, getSig sigs f2 = some sig2 → sig1 ≠ sig2 →
      ∃ g, (pairStep cmp 0 sigs f1 sig1 f2 st).dups[0]? = some g ∧
        f1 ∈ g.1 ∧ f2 ∈ g.1) := by
  by_cases hpk : pairKey f1 f2 ∈ st.processed
  · rw [pairStep_skip_processed hpk]
    refine ⟨hinv, fun sig2 _ _ => ?_⟩
    obtain ⟨g, hg, h1, h2⟩ := hinv.2 _ hpk
    rcases pairKey_cases f1 f2 with hk | hk <;> rw [hk] at h1 h2
    · exact ⟨g, hg, h1, h2⟩
    · exact ⟨g, hg, h2, h1⟩
  · cases h2 : getSig sigs f2 with
    | none =>
        rw [pairStep_skip_nosig h2]
        exact ⟨hinv, fun sig2 hsig2 _ => Option.noConfusion hsig2⟩
    | some sig2 =>
        by_cases he : sig1 = sig2
        · rw [pairStep_skip_eq h2 he]
          refine ⟨hinv, fun sig2' hsig2' hne => ?_⟩
          exact absurd (he.trans (Option.some.inj hsig2')) hne
        · rw [pairStep_join_eq hpk h2 he (h0 sig1 sig2)]
          have hcomp : ∃ g,
              (joinOrCreate cmp 0 sigs sig1 sig2 f1 f2 (cmp sig1 sig2) st.dups)[0]? =
                some g ∧ f1 ∈ g.1 ∧ f2 ∈ g.1 := by
            cases hd : st.dups with
            | nil =>
                refine ⟨([f1, f2], cmp sig1 sig2), ?_, by simp, by simp⟩
                simp [joinOrCreate, tryJoin]
            | cons g0 gs =>
                have hne0 : g0.1 ≠ [] := hinv.1 g0 (by rw [hd]; exact List.mem_cons_self _ _)
                rw [joinOrCreate_zero_cons h0 hne0]
                exact ⟨(addMember (addMember g0.1 f1) f2, g0.2), by simp,
                  subset_addMember _ _ (self_mem_addMember _ _),
                  self_mem_addMember _ _⟩
          obtain ⟨gJ, hgJ, hJ1, hJ2⟩ := hcomp
          refine ⟨⟨?_, ?_⟩, ?_⟩
          · exact joinOrCreate_nonempty hinv.1
          · intro pr hpr
            rcases List.mem_cons.mp hpr with rfl | hmem
            · refine ⟨gJ, hgJ, ?_, ?_⟩ <;>
                rcases pairKey_cases f1 f2 with hk | hk <;> rw [hk] <;>
                simp [hJ1, hJ2]
            · obtain ⟨g, hg, hp1, hp2⟩ := hinv.2 _ hmem
              obtain ⟨g', hg', _, hsub⟩ := joinOrCreate_mono 0 g hg
              exact ⟨g', hg', hsub hp1, hsub hp2⟩
          · intro sig2' hsig2' _
            exact ⟨gJ, hgJ, hJ1, hJ2⟩

theorem innerLoop_zero {cmp : String → String → ℚ}
    {sigs : List (String × String)} {f1 sig1 : String} {rest : List String}
    {st : PairSt}
    (h0 : ∀ a b, 0 ≤ cmp a b) (hinv : InvZ st) :
    InvZ (innerLoop cmp 0 sigs f1 sig1 rest st) ∧
    (∀ f2 ∈ rest, ∀ sig2, getSig sigs f2 = some sig2 → sig1 ≠ sig2 →
      ∃ g, (innerLoop cmp 0 sigs f1 sig1 rest st).dups[0]? = some g ∧
        f1 ∈ g.1 ∧ f2 ∈ g.1) := by
  induction rest generalizing st with
  | nil => exact ⟨hinv, fun f2 hf2 => absurd hf2 (List.not_mem_nil f2)⟩
  | cons f2' rest' ih =>
      have hstep := @pairStep_zero cmp sigs f1 sig1 f2' st h0 hinv
      obtain ⟨ihinv, ihcomp⟩ := ih hstep.1
      refine ⟨ihinv, ?_⟩
      intro f2 hf2 sig2 hsig2 hne
      rcases List.mem_cons.mp hf2 with rfl | hmem
      · obtain ⟨g, hg, hm1, hm2⟩ := hstep.2 sig2 hsig2 hne
        obtain ⟨g', hg', _, hsub⟩ := @innerLoop_mono cmp 0 sigs f1 sig1 rest' _ 0 g hg
        exact ⟨g', hg', hsub hm1, hsub hm2⟩
      · exact ihcomp f2 hmem sig2 hsig2 hne

theorem bucketLoop_zero {cmp : String → String → ℚ}
    {sigs : List (String × String)} {b : List String} {st : PairSt}
    (h0 : ∀ a b, 0 ≤ cmp a b) (hinv : InvZ st) :
    InvZ (bucketLoop cmp 0 sigs b st) ∧
    (∀ x ∈ b, ∀ y ∈ b, ∀ sx sy, getSig sigs x = some sx →
      getSig sigs y = some sy → sx ≠ sy →
      ∃ g, (bucketLoop cmp 0 sigs b st).dups[0]? = some g ∧ x ∈ g.1 ∧ y ∈ g.1) := by
  induction b generalizing st with
  | nil => exact ⟨hinv, fun x hx => absurd hx (List.not_mem_nil x)⟩
  | cons f rest ih =>
      simp only [bucketLoop]
      cases hf : getSig sigs f with
      | none =>
          obtain ⟨ihinv, ihcomp⟩ := ih hinv
          refine ⟨ihinv, ?_⟩
          intro x hx y hy sx sy hsx hsy hne
          rcases List.mem_cons.mp hx with rfl | hxm
          · rw [hf] at hsx
            cases hsx
          · rcases List.mem_cons.mp hy with rfl | hym
            · rw [hf] at hsy
              cases hsy
            · exact ihcomp x hxm y hym sx sy hsx hsy hne
      | some sigf =>
          have hil := @innerLoop_zero cmp sigs f sigf rest st h0 hinv
          obtain ⟨ihinv, ihcomp⟩ := ih hil.1
          refine ⟨ihinv, ?_⟩
          intro x hx y hy sx sy hsx hsy hne
          rcases List.mem_cons.mp hx with rfl | hxm
          · -- x is the head file
            rw [hf] at hsx
            cases hsx
            rcases List.mem_cons.mp hy with rfl | hym
            · rw [hf] at hsy
              cases hsy
              exact absurd rfl hne
            · obtain ⟨g, hg, hm1, hm2⟩ := hil.2 y hym sy hsy hne
              obtain ⟨g', hg', _, hsub⟩ := @bucketLoop_mono cmp 0 sigs rest _ 0 g hg
              exact ⟨g', hg', hsub hm1, hsub hm2⟩
          · rcases List.mem_cons.mp hy with rfl | hym
            · rw [hf] at hsy
              cases hsy
              obtain ⟨g, hg, hm1, hm2⟩ := hil.2 x hxm sx hsx (Ne.symm hne)
              obtain ⟨g', hg', _, hsub⟩ := @bucketLoop_mono cmp 0 sigs rest _ 0 g hg
              exact ⟨g', hg', hsub hm2, hsub hm1⟩
            · exact ihcomp x hxm y hym sx sy hsx hsy hne

theorem allBuckets_zero {cmp : String → String → ℚ}
    {sigs : List (String × String)} {bs : List (List String)} {st : PairSt}
    (h0 : ∀ a b, 0 ≤ cmp a b) (hinv : InvZ st) :
    InvZ (allBuckets cmp 0 sigs bs st) ∧
    (∀ b ∈ bs, ∀ x ∈ b, ∀ y ∈ b, ∀ sx sy, getSig sigs x = some sx →
      getSig sigs y = some sy → sx ≠ sy →
      ∃ g, (allBuckets cmp 0 sigs bs st).dups[0]? = some g ∧ x ∈ g.1 ∧ y ∈ g.1) := by
  induction bs generalizing st with
  | nil => exact ⟨hinv, fun b hb => absurd hb (List.not_mem_nil b)⟩
  | cons b bs' ih =>
      simp only [allBuckets]
      split
      · next hblen =>
          obtain ⟨ihinv, ihcomp⟩ := ih hinv
          refine ⟨ihinv, ?_⟩
          intro b' hb' x hx y hy sx sy hsx hsy hne
          rcases List.mem_cons.mp hb' with rfl | hbm
          · have hxy : x ≠ y := by
              rintro rfl
              rw [hsx] at hsy
              cases hsy
              exact hne rfl
            exact absurd (two_le_length_of_mem_ne hx hy hxy) (by omega)
          · exact ihcomp b' hbm x hx y hy sx sy hsx hsy hne
      · have hbl := @bucketLoop_zero cmp sigs b st h0 hinv
        obtain ⟨ihinv, ihcomp⟩ := ih hbl.1
        refine ⟨ihinv, ?_⟩
        intro b' hb' x hx y hy sx sy hsx hsy hne
        rcases List.mem_cons.mp hb' with rfl | hbm
        · obtain ⟨g, hg, hm1, hm2⟩ := hbl.2 x hx y hy sx sy hsx hsy hne
          obtain ⟨g', hg', _, hsub⟩ := @allBuckets_mono cmp 0 sigs bs' _ 0 g hg
          exact ⟨g', hg', hsub hm1, hsub hm2⟩
        · exact ihcomp b' hbm x hx y hy sx sy hsx hsy hne

theorem fuzzyCore_zero {cmp : String → String → ℚ}
    {sigs : List (String × String)} {files : List String} {dups : List Group}
    (h0 : ∀ a b, 0 ≤ cmp a b) (hne : ∀ g ∈ dups, g.1 ≠ [])
    {f1 f2 s1 s2 : String}
    (hf1 : f1 ∈ files) (hf2 : f2 ∈ files)
    (hs1 : getSig sigs f1 = some s1) (hs2 : getSig sigs f2 = some s2)
    (hpre : s1.take 8 = s2.take 8) (hne12 : s1 ≠ s2) :
    ∃ g, (fuzzyCore cmp 0 sigs files dups)[0]? = some g ∧ f1 ∈ g.1 ∧ f2 ∈ g.1 := by
  have hk1 : prefixKey sigs f1 = some (s1.take 8) := by
    simp [prefixKey, hs1]
  have hk2 : prefixKey sigs f2 = some (s1.take 8) := by
    simp [prefixKey, hs2, hpre]
  obtain ⟨ms1, hm1, hin1⟩ := @groupByKeyAux_complete _ [] _ _ _ hk1 hf1
  obtain ⟨ms2, hm2, hin2⟩ := @groupByKeyAux_complete _ [] _ _ _ hk2 hf2
  rw [hm1] at hm2
  cases hm2
  have hbmem : ms1 ∈ (groupByKey (prefixKey sigs) files).map (fun x => x.2) :=
    List.mem_map.mpr ⟨(s1.take 8, ms1), lookupStr_mem hm1, rfl⟩
  have hinv0 : InvZ ⟨[], dups⟩ := by
    constructor
    · exact hne
    · intro pr hpr
      cases hpr
  have := (@allBuckets_zero cmp sigs ((groupByKey (prefixKey sigs) files).map
    (fun x => x.2)) ⟨[], dups⟩ h0 hinv0).2
  exact this ms1 hbmem f1 hin1 f2 hin2 s1 s2 hs1 hs2 hne12

/-! ### Facts about the exact-match phase -/

theorem exactGroups_mem {sigOf : String → Option String} {files : List String}
    {g : Group} (hg : g ∈ exactGroups sigOf files) :
    ∃ s ms, g = (ms, (1 : ℚ)) ∧ 1 < ms.length ∧ ms ≠ [] ∧
      (∀ f ∈ ms, truthy (sigOf f) = some s) ∧ (∀ f ∈ ms, f ∈ files) := by
  simp only [exactGroups] at hg
  obtain ⟨p, hp, hval⟩ := List.mem_filterMap.mp hg
  split at hval
  · next hlen =>
      cases hval
      have hsound := @groupByKeyAux_key_sound
        (fun f => truthy (sigOf f)) [] files (by simp)
      have hmemf := @groupByKeyAux_pred
        (fun f => truthy (sigOf f)) (fun x => x ∈ files) [] files
        (by simp) (fun f hf => hf)
      refine ⟨p.1, p.2, rfl, hlen, ?_, fun f hf => hsound p hp f hf,
        fun f hf => hmemf p hp f hf⟩
      intro hnil
      rw [hnil] at hlen
      simp at hlen
  · cases hval

theorem exactGroups_sigs {sigOf : String → Option String} {files : List String} :
    MembersHaveSigs (computeSigMap sigOf files) (exactGroups sigOf files) := by
  intro g hg x hx
  obtain ⟨s, ms, rfl, _, _, hsig, hmem⟩ := exactGroups_mem hg
  simp only at hx
  rw [getSig_computeSigMap (hmem x hx) (hsig x hx)]
  rfl

/-! ### Hex hashes: well-formed inputs give Hamming distances -/

theorem mapM_eq_some_map {α β : Type} (f : α → Option β) (g : α → β) :
    ∀ (l : List α), (∀ x ∈ l, f x = some (g x)) → l.mapM f = some (l.map g) := by
  intro l
  induction l with
  | nil => intro _; rfl
  | cons a rest ih =>
      intro h
      rw [List.mapM_cons, h a (List.mem_cons_self _ _),
        ih (fun x hx => h x (List.mem_cons_of_mem _ hx))]
      rfl

theorem filterMap_congr_some {α β : Type} {f : α → Option β} {g : α → β} :
    ∀ {l : List α}, (∀ x ∈ l, f x = some (g x)) → l.filterMap f = l.map g := by
  intro l
  induction l with
  | nil => intro _; rfl
  | cons a rest ih =>
      intro h
      rw [List.filterMap_cons, h a (List.mem_cons_self _ _),
        ih (fun x hx => h x (List.mem_cons_of_mem _ hx)), List.map_cons]

theorem length_flatMap_nibbleBits :
    ∀ ns : List Nat, (ns.flatMap nibbleBits).length = 4 * ns.length := by
  intro ns
  induction ns with
  | nil => rfl
  | cons n rest ih =>
      simp only [List.flatMap_cons, List.length_append, ih, nibbleBits]
      simp [Nat.mul_succ, Nat.add_comm]

theorem hexWF_spec {n : Nat} {s : String} (h : hexWF n s = true) :
    s.length = n ∧ ∀ c ∈ s.data, (hexVal c).isSome := by
  simp only [hexWF, Bool.and_eq_true, beq_iff_eq, List.all_eq_true] at h
  exact ⟨h.1, h.2⟩

theorem hexToBits_of_wf {n : Nat} {s : String} (hn : 0 < n)
    (h : hexWF n s = true) :
    ∃ bits, hexToBits s = some bits ∧ bits.length = 4 * n := by
  obtain ⟨hlen, hall⟩ := hexWF_spec h
  have hne : s ≠ "" := by
    intro habs
    rw [habs] at hlen
    simp at hlen
    omega
  have hmap : s.data.mapM hexVal =
      some (s.data.map (fun c => (hexVal c).getD 0)) := by
    apply mapM_eq_some_map
    intro c hc
    cases hv : hexVal c with
    | none =>
        have := hall c hc
        rw [hv] at this
        cases this
    | some v => simp [hv]
  refine ⟨(s.data.map (fun c => (hexVal c).getD 0)).flatMap nibbleBits, ?_, ?_⟩
  · unfold hexToBits
    rw [if_neg hne, hmap]
    rfl
  · rw [length_flatMap_nibbleBits, List.length_map]
    have : s.data.length = n := hlen
    omega

theorem hammingBits_le {b1 b2 : List Bool} :
    hammingBits b1 b2 ≤ b1.length := by
  calc hammingBits b1 b2 ≤ (b1.zip b2).length := List.countP_le_length _
  _ ≤ b1.length := by rw [List.length_zip]; omega

theorem subHash_of_wf {n : Nat} {h1 h2 : String} (hn : 0 < n)
    (hsq : isSquareLen (4 * n) = true)
    (hw1 : hexWF n h1 = true) (hw2 : hexWF n h2 = true) :
    subHash h1 h2 = some (hammingBits (hexBitsD h1) (hexBitsD h2)) ∧
    hammingBits (hexBitsD h1) (hexBitsD h2) ≤ 4 * n := by
  obtain ⟨b1, hb1, hl1⟩ := hexToBits_of_wf hn hw1
  obtain ⟨b2, hb2, hl2⟩ := hexToBits_of_wf hn hw2
  have hd1 : hexBitsD h1 = b1 := by simp [hexBitsD, hb1]
  have hd2 : hexBitsD h2 = b2 := by simp [hexBitsD, hb2]
  constructor
  · simp [subHash, hb1, hb2, hl1, hl2, hsq, hd1, hd2]
  · rw [hd1, hd2]
    calc hammingBits b1 b2 ≤ b1.length := hammingBits_le
    _ = 4 * n := hl1

theorem foldl_min_bounds {lo hi : ℚ} :
    ∀ (xs : List ℚ) (acc : ℚ), lo ≤ acc → acc ≤ hi →
      (∀ x ∈ xs, lo ≤ x ∧ x ≤ hi) →
      lo ≤ xs.foldl min acc ∧ xs.foldl min acc ≤ hi := by
  intro xs
  induction xs with
  | nil => exact fun acc h1 h2 _ => ⟨h1, h2⟩
  | cons x rest ih =>
      intro acc h1 h2 hall
      have hx := hall x (List.mem_cons_self _ _)
      refine ih (min acc x) (le_min h1 hx.1) ((min_le_left _ _).trans h2) ?_
      exact fun y hy => hall y (List.mem_cons_of_mem _ hy)

theorem minList_bounds {lo hi : ℚ} {l : List ℚ} (hne : l ≠ [])
    (hall : ∀ x ∈ l, lo ≤ x ∧ x ≤ hi) :
    lo ≤ minList l ∧ minList l ≤ hi := by
  cases l with
  | nil => exact absurd rfl hne
  | cons x rest =>
      have hx := hall x (List.mem_cons_self _ _)
      exact foldl_min_bounds rest x hx.1 hx.2
        (fun y hy => hall y (List.mem_cons_of_mem _ hy))

theorem channel_sim_bounds {d bound : Nat} (hb : 0 < bound) (hd : d ≤ bound) :
    0 ≤ 1 - (d : ℚ) / (bound : ℚ) ∧ 1 - (d : ℚ) / (bound : ℚ) ≤ 1 := by
  have hbq : (0 : ℚ) < (bound : ℚ) := by exact_mod_cast hb
  constructor
  · have : (d : ℚ) / (bound : ℚ) ≤ 1 := by
      rw [div_le_one hbq]
      exact_mod_cast hd
    linarith
  · have : 0 ≤ (d : ℚ) / (bound : ℚ) :=
      div_nonneg (by positivity) (le_of_lt hbq)
    linarith

/-! ### Cache lemmas -/

theorem lookupStr_append_single {α : Type} (c : List (String × α)) (p q : String)
    (s : α) :
    lookupStr (c ++ [(p, s)]) q =
      match lookupStr c q with
      | some v => some v
      | none => if q = p then some s else none := by
  induction c with
  | nil => simp [lookupStr]
  | cons e rest ih =>
      obtain ⟨k, v⟩ := e
      simp only [List.cons_append, lookupStr]
      split
      · rfl
      · exact ih

theorem compute_signature_hit {hashOf : String → Option String}
    {cache : List (String × String)} {p v : String}
    (h : lookupStr cache p = some v) :
    ImageDetector.compute_signature hashOf cache p = (some v, cache) := by
  simp [ImageDetector.compute_signature, h]

theorem cacheAfter_length {hashOf : String → Option String}
    (hall : ∀ p, (hashOf p).isSome) :
    ∀ (paths : List String) (cache : List (String × String)), paths.Nodup →
      (∀ p ∈ paths, lookupStr cache p = none) →
      (ImageDetector.cacheAfter hashOf paths cache).length =
        cache.length + paths.length := by
  intro paths
  induction paths with
  | nil => intro cache _ _; simp [ImageDetector.cacheAfter]
  | cons p rest ih =>
      intro cache hnd hnone
      have hp : lookupStr cache p = none := hnone p (List.mem_cons_self _ _)
      cases hv : hashOf p with
      | none =>
          have := hall p
          rw [hv] at this
          cases this
      | some s =>
          have hstep : (ImageDetector.compute_signature hashOf cache p).2 =
              cache ++ [(p, s)] := by
            simp [ImageDetector.compute_signature, hp, hv]
          have hrest : ∀ q ∈ rest, lookupStr (cache ++ [(p, s)]) q = none := by
            intro q hq
            rw [lookupStr_append_single]
            have hqp : q ≠ p := by
              intro habs
              subst habs
              exact (List.nodup_cons.mp hnd).1 hq
            simp [hnone q (List.mem_cons_of_mem _ hq), hqp]
          have := ih (cache ++ [(p, s)]) (List.nodup_cons.mp hnd).2 hrest
          simp only [ImageDetector.cacheAfter, List.foldl_cons] at *
          rw [hstep]
          rw [this]
          simp [List.length_append]
          omega

theorem pathN_injective : Function.Injective Ex.pathN := by
  intro i j h
  have := congrArg (fun s => s.data.length) h
  simpa [Ex.pathN] using this

theorem BoundedCache.set_maxsize (c : BoundedCache) (k v : String) :
    (c.set k v).maxsize = c.maxsize := by
  unfold BoundedCache.set
  cases lookupStr c.entries k <;> simp only
  split <;> rfl

theorem BoundedCache.set_entries_hit {c : BoundedCache} {k v' : String} (v : String)
    (hl : lookupStr c.entries k = some v') :
    (c.set k v).entries = (c.entries.filter (fun p => p.1 != k)) ++ [(k, v)] := by
  unfold BoundedCache.set
  simp [hl]

theorem BoundedCache.set_entries_evict {c : BoundedCache} {k : String} (v : String)
    (hl : lookupStr c.entries k = none) (hfull : c.maxsize ≤ c.entries.length) :
    (c.set k v).entries = c.entries.drop 1 ++ [(k, v)] := by
  unfold BoundedCache.set
  simp [hl, hfull]

theorem BoundedCache.set_entries_app {c : BoundedCache} {k : String} (v : String)
    (hl : lookupStr c.entries k = none) (hfull : ¬ c.maxsize ≤ c.entries.length) :
    (c.set k v).entries = c.entries ++ [(k, v)] := by
  unfold BoundedCache.set
  simp [hl, hfull]

theorem BoundedCache.set_length_le {c : BoundedCache} (k v : String)
    (hmax : 1 ≤ c.maxsize) (hlen : c.entries.length ≤ c.maxsize) :
    (c.set k v).entries.length ≤ c.maxsize := by
  cases hl : lookupStr c.entries k with
  | some v' =>
      rw [BoundedCache.set_entries_hit v hl, List.length_append]
      have hmem : (k, v') ∈ c.entries := lookupStr_mem hl
      have hfl : (c.entries.filter (fun p => p.1 != k)).length < c.entries.length := by
        apply List.length_filter_lt_length_iff_exists.mpr
        exact ⟨(k, v'), hmem, by simp⟩
      simp only [List.length_singleton]
      omega
  | none =>
      by_cases hfull : c.maxsize ≤ c.entries.length
      · rw [BoundedCache.set_entries_evict v hl hfull, List.length_append,
          List.length_drop]
        simp only [List.length_singleton]
        omega
      · rw [BoundedCache.set_entries_app v hl hfull, List.length_append]
        simp only [List.length_singleton]
        omega

theorem applySets_bound :
    ∀ (ops : List (String × String)) (c : BoundedCache), 1 ≤ c.maxsize →
      c.entries.length ≤ c.maxsize →
      (applySets ops c).entries.length ≤ (applySets ops c).maxsize := by
  intro ops
  induction ops with
  | nil => intro c h1 h2; exact h2
  | cons op rest ih =>
      intro c h1 h2
      simp only [applySets, List.foldl_cons]
      have h1' : 1 ≤ (c.set op.1 op.2).maxsize := by
        rw [BoundedCache.set_maxsize]; exact h1
      have h2' : (c.set op.1 op.2).entries.length ≤ (c.set op.1 op.2).maxsize := by
        rw [BoundedCache.set_maxsize]
        exact BoundedCache.set_length_le op.1 op.2 h1 h2
      exact ih (c.set op.1 op.2) h1' h2'

/-! ### The pipeline with clear flags -/

theorem find_duplicates_run (category : String) (cmp : String → String → ℚ)
    (t : ℚ) (sigOf : String → Option String) (files : List String) :
    find_duplicates false false category cmp t sigOf files =
      if category ∈ fuzzyCategories then
        fuzzyCore cmp t (computeSigMap sigOf files) files (exactGroups sigOf files)
      else exactGroups sigOf files := by
  simp [find_duplicates, computeSignaturesPhase, exactGroupsPhase,
    find_similar_pairs_optimized]

theorem exactGroups_ok {cmp : String → String → ℚ} {t : ℚ}
    {sigOf : String → Option String} {files : List String}
    (hrefl : ∀ s, t ≤ cmp s s) :
    DupsOK cmp t (computeSigMap sigOf files) (exactGroups sigOf files) := by
  intro g hg
  simp only [exactGroups] at hg
  obtain ⟨p, hp, hval⟩ := List.mem_filterMap.mp hg
  split at hval
  · cases hval
    intro a ha b hb
    simp only at ha hb
    have hsound := @groupByKeyAux_key_sound
      (fun f => truthy (sigOf f)) [] files (by simp)
    have hmemf := @groupByKeyAux_pred
      (fun f => truthy (sigOf f)) (fun x => x ∈ files) [] files
      (by simp) (fun f hf => hf)
    have hfa : a ∈ files := hmemf p hp a ha
    have hfb : b ∈ files := hmemf p hp b hb
    have hka : truthy (sigOf a) = some p.1 := hsound p hp a ha
    have hkb : truthy (sigOf b) = some p.1 := hsound p hp b hb
    exact ⟨p.1, p.1, getSig_computeSigMap hfa hka, getSig_computeSigMap hfb hkb,
      hrefl p.1⟩
  · cases hval

theorem exactGroups_nonempty {sigOf : String → Option String}
    {files : List String} {g : Group} (hg : g ∈ exactGroups sigOf files) :
    g.1 ≠ [] := by
  obtain ⟨s, ms, rfl, _, hne, _, _⟩ := exactGroups_mem hg
  exact hne

theorem exactGroups_score {sigOf : String → Option String}
    {files : List String} {g : Group} (hg : g ∈ exactGroups sigOf files) :
    g.2 = 1 := by
  obtain ⟨s, ms, rfl, _, _, _, _⟩ := exactGroups_mem hg
  rfl

theorem tryJoin_found {cmp : String → String → ℚ} {t : ℚ}
    {sigs : List (String × String)} {sig1 sig2 f1 f2 : String}
    {dups d' : List Group}
    (h : tryJoin cmp t sigs sig1 sig2 f1 f2 dups = some d') :
    ∃ (j : Nat) (g : Group), dups[j]? = some g ∧ g.1 ≠ [] ∧
      matchesAll cmp t sigs sig1 g.1 = true ∧
      matchesAll cmp t sigs sig2 g.1 = true := by
  induction dups generalizing d' with
  | nil => simp [tryJoin] at h
  | cons g0 gs ih =>
      simp only [tryJoin] at h
      split at h
      · next hc => exact ⟨0, g0, by simp, hc.1, hc.2.1, hc.2.2⟩
      · obtain ⟨d'', hd'', rfl⟩ := Option.map_eq_some'.mp h
        obtain ⟨j, g, hj, hne, hm1, hm2⟩ := ih hd''
        exact ⟨j + 1, g, by simpa using hj, hne, hm1, hm2⟩

theorem doc_cmp_symm (a b : String) :
    DocumentDetector.compare_signatures a b = DocumentDetector.compare_signatures b a := by
  unfold DocumentDetector.compare_signatures
  by_cases h : a = b
  · simp [h]
  · simp [h, Ne.symm h]

theorem doc_cmp_refl {t : ℚ} (ht : t ≤ 1) (s : String) :
    t ≤ DocumentDetector.compare_signatures s s := by
  simpa [DocumentDetector.compare_signatures] using ht

theorem doc_cmp_nonneg (a b : String) :
    0 ≤ DocumentDetector.compare_signatures a b := by
  unfold DocumentDetector.compare_signatures
  split <;> norm_num

theorem doc_cmp_lt {t : ℚ} (ht : 0 < t) {a b : String} (h : a ≠ b) :
    DocumentDetector.compare_signatures a b < t := by
  simpa [DocumentDetector.compare_signatures, h] using ht

theorem code_cmp_lt {t : ℚ} (ht : 0 < t) {a b : String} (h : a ≠ b) :
    CodeDetector.compare_signatures a b < t := by
  simpa [CodeDetector.compare_signatures, h] using ht

theorem applySets_maxsize :
    ∀ (ops : List (String × String)) (c : BoundedCache),
      (applySets ops c).maxsize = c.maxsize := by
  intro ops
  induction ops with
  | nil => intro c; rfl
  | cons op rest ih =>
      intro c
      simp only [applySets, List.foldl_cons] at *
      rw [ih (c.set op.1 op.2), BoundedCache.set_maxsize]

theorem applyCalls_stopped :
    ∀ (cs : List ControlCall) (s : ScannerFlags), s.is_stopped = true →
      (applyCalls s cs).is_stopped = true := by
  intro cs
  induction cs with
  | nil => intro s h; exact h
  | cons c rest ih =>
      intro s h
      simp only [applyCalls, List.foldl_cons] at *
      apply ih
      cases c <;> simp [applyCall, pauseCall, resumeCall, stopCall, h]

/-! ## The claims -/

/-- C1: for every group produced by `_find_duplicates` (exact-match phase
or fuzzy phase), every pair of members has signatures whose
`compare_signatures` value clears the configured threshold; and the fuzzy
search joins a pair to an existing group only when both files clear the
threshold against every current member of that group.  The hypotheses hold
for the detectors of this repository: their comparison functions are
symmetric, and a signature compared against itself scores 1.0 ≥ t for any
threshold t ≤ 1. -/
theorem spec_C1 (category : String) (cmp : String → String → ℚ) (t : ℚ)
    (sigOf : String → Option String) (files : List String)
    (hsym : ∀ a b, cmp a b = cmp b a) (hrefl : ∀ s, t ≤ cmp s s) :
    (∀ g ∈ find_duplicates false false category cmp t sigOf files,
      ∀ a ∈ g.1, ∀ b ∈ g.1, ∃ sa sb,
        getSig (computeSigMap sigOf files) a = some sa ∧
        getSig (computeSigMap sigOf files) b = some sb ∧ t ≤ cmp sa sb) ∧
    (∀ (sigs : List (String × String)) (sig1 sig2 f1 f2 : String)
       (dups d' : List Group),
       tryJoin cmp t sigs sig1 sig2 f1 f2 dups = some d' →
       ∃ (j : Nat) (g : Group), dups[j]? = some g ∧ g.1 ≠ [] ∧
         matchesAll cmp t sigs sig1 g.1 = true ∧
         matchesAll cmp t sigs sig2 g.1 = true) := by
  constructor
  · rw [find_duplicates_run]
    split
    · intro g hg
      exact fuzzyCore_ok hsym hrefl (exactGroups_ok hrefl) g hg
    · intro g hg
      exact exactGroups_ok hrefl g hg
  · intro sigs sig1 sig2 f1 f2 dups d' h
    exact tryJoin_found h

/-- Witness for C1: the document detector with threshold 0.95 on three
text files, two of which share no signature. -/
theorem spec_C1_witness :
    (∀ a b, DocumentDetector.compare_signatures a b =
      DocumentDetector.compare_signatures b a) ∧
    (∀ s, (19 : ℚ)/20 ≤ DocumentDetector.compare_signatures s s) ∧
    (∀ g ∈ find_duplicates false false "document"
        DocumentDetector.compare_signatures ((19 : ℚ)/20) Ex.sigOfDocs
        ["f1", "f2", "f3"],
      ∀ a ∈ g.1, ∀ b ∈ g.1, ∃ sa sb,
        getSig (computeSigMap Ex.sigOfDocs ["f1", "f2", "f3"]) a = some sa ∧
        getSig (computeSigMap Ex.sigOfDocs ["f1", "f2", "f3"]) b = some sb ∧
        (19 : ℚ)/20 ≤ DocumentDetector.compare_signatures sa sb) :=
  ⟨doc_cmp_symm, doc_cmp_refl (by norm_num),
   (spec_C1 "document" DocumentDetector.compare_signatures ((19 : ℚ)/20)
     Ex.sigOfDocs ["f1", "f2", "f3"] doc_cmp_symm
     (doc_cmp_refl (by norm_num))).1⟩

/-- C2: for the document and code categories `compare_signatures` is the
equality indicator on signature hashes (1.0 on identical, 0.0 otherwise);
the bucketed grouping path compares only through `compare_signatures`
(never `compare_files`), so for any threshold strictly above 0 the fuzzy
phase leaves the duplicates list exactly as the exact-match phase built
it. -/
theorem spec_C2 :
    (∀ s, DocumentDetector.compare_signatures s s = 1) ∧
    (∀ s1 s2, s1 ≠ s2 → DocumentDetector.compare_signatures s1 s2 = 0) ∧
    (∀ s, CodeDetector.compare_signatures s s = 1) ∧
    (∀ s1 s2, s1 ≠ s2 → CodeDetector.compare_signatures s1 s2 = 0) ∧
    (∀ (t : ℚ) (sigs : List (String × String)) (files : List String)
       (dups : List Group), 0 < t →
       fuzzyCore DocumentDetector.compare_signatures t sigs files dups = dups) ∧
    (∀ (t : ℚ) (sigs : List (String × String)) (files : List String)
       (dups : List Group), 0 < t →
       fuzzyCore CodeDetector.compare_signatures t sigs files dups = dups) := by
  refine ⟨?_, ?_, ?_, ?_, ?_, ?_⟩
  · intro s
    simp [DocumentDetector.compare_signatures]
  · intro s1 s2 h
    simp [DocumentDetector.compare_signatures, h]
  · intro s
    simp [CodeDetector.compare_signatures]
  · intro s1 s2 h
    simp [CodeDetector.compare_signatures, h]
  · intro t sigs files dups ht
    exact fuzzyCore_noop (fun a b hab => doc_cmp_lt ht hab)
  · intro t sigs files dups ht
    exact fuzzyCore_noop (fun a b hab => code_cmp_lt ht hab)

/-- Witness for C2: with threshold 0.95 the fuzzy phase over the three
document files adds nothing. -/
theorem spec_C2_witness :
    (0 : ℚ) < 19/20 ∧
    fuzzyCore DocumentDetector.compare_signatures ((19 : ℚ)/20)
      (computeSigMap Ex.sigOfDocs ["f1", "f2", "f3"]) ["f1", "f2", "f3"] [] = [] ∧
    fuzzyCore CodeDetector.compare_signatures ((19 : ℚ)/20) [("a", "s1")] ["a"] [] = [] :=
  ⟨by norm_num,
   spec_C2.2.2.2.2.1 ((19 : ℚ)/20) _ _ _ (by norm_num),
   spec_C2.2.2.2.2.2 ((19 : ℚ)/20) _ _ _ (by norm_num)⟩

/-- C3: at threshold 0.0 the fuzzy phase puts both files of every
same-bucket pair with distinct signatures into the single leading group of
the result; at threshold 1.0 the hash-based categories (document, code
with their equality-indicator compare, and archive which skips the fuzzy
phase entirely) produce exactly the exact-signature groups, whose members
all share one signature. -/
theorem spec_C3 :
    (∀ (cmp : String → String → ℚ) (sigOf : String → Option String)
       (files : List String) (category : String),
       category ∈ fuzzyCategories → (∀ a b, 0 ≤ cmp a b) →
       ∀ f1 f2 s1 s2, f1 ∈ files → f2 ∈ files →
         getSig (computeSigMap sigOf files) f1 = some s1 →
         getSig (computeSigMap sigOf files) f2 = some s2 →
         s1.take 8 = s2.take 8 → s1 ≠ s2 →
         ∃ g, (find_duplicates false false category cmp 0 sigOf files)[0]? = some g ∧
           f1 ∈ g.1 ∧ f2 ∈ g.1) ∧
    (∀ (sigOf : String → Option String) (files : List String),
       find_duplicates false false "document" DocumentDetector.compare_signatures 1
         sigOf files = exactGroups sigOf files) ∧
    (∀ (sigOf : String → Option String) (files : List String),
       find_duplicates false false "code" CodeDetector.compare_signatures 1
         sigOf files = exactGroups sigOf files) ∧
    (∀ (cmp : String → String → ℚ) (t : ℚ) (sigOf : String → Option String)
       (files : List String),
       find_duplicates false false "archive" cmp t sigOf files =
         exactGroups sigOf files) ∧
    (∀ (sigOf : String → Option String) (files : List String) (g : Group),
       g ∈ exactGroups sigOf files → ∃ s, ∀ f ∈ g.1, truthy (sigOf f) = some s) := by
  refine ⟨?_, ?_, ?_, ?_, ?_⟩
  · intro cmp sigOf files category hcat h0 f1 f2 s1 s2 hf1 hf2 hs1 hs2 hpre hne
    rw [find_duplicates_run, if_pos hcat]
    exact fuzzyCore_zero h0 (fun g hg => exactGroups_nonempty hg) hf1 hf2 hs1 hs2
      hpre hne
  · intro sigOf files
    rw [find_duplicates_run, if_pos (by simp [fuzzyCategories])]
    exact fuzzyCore_noop (fun a b hab => doc_cmp_lt (by norm_num) hab)
  · intro sigOf files
    rw [find_duplicates_run, if_pos (by simp [fuzzyCategories])]
    exact fuzzyCore_noop (fun a b hab => code_cmp_lt (by norm_num) hab)
  · intro cmp t sigOf files
    rw [find_duplicates_run, if_neg (by simp [fuzzyCategories])]
  · intro sigOf files g hg
    obtain ⟨s, ms, rfl, _, _, hsig, _⟩ := exactGroups_mem hg
    exact ⟨s, hsig⟩

/-- Witness for C3: three document files with pairwise distinct signatures
sharing the 8-character prefix at threshold 0 land in the leading group. -/
theorem spec_C3_witness :
    ("document" ∈ fuzzyCategories) ∧
    (∀ a b, 0 ≤ DocumentDetector.compare_signatures a b) ∧
    (∃ g, (find_duplicates false false "document"
        DocumentDetector.compare_signatures 0 Ex.sigOfDocs
        ["f1", "f2", "f3"])[0]? = some g ∧ "f1" ∈ g.1 ∧ "f2" ∈ g.1) :=
  ⟨by simp [fuzzyCategories], doc_cmp_nonneg,
   spec_C3.1 DocumentDetector.compare_signatures Ex.sigOfDocs ["f1", "f2", "f3"]
     "document" (by simp [fuzzyCategories]) doc_cmp_nonneg "f1" "f2"
     "aaaaaaaa1" "aaaaaaaa2" (by decide) (by decide) (by decide) (by decide)
     (by decide) (by decide)⟩

/-- C9: stopping is terminal.  Once `stop()` runs, `is_stopped` stays true
under any further sequence of control calls; with the stop flag set, the
signature-computation loop computes nothing, the pairwise-comparison loop
returns the duplicates list untouched, `_find_duplicates` produces no
groups, and the save loop hands nothing to persistence. -/
theorem spec_C9 :
    (∀ (s : ScannerFlags) (cs : List ControlCall),
       (applyCalls (stopCall s) cs).is_stopped = true) ∧
    (∀ (p : Bool) (sigOf : String → Option String) (files : List String),
       computeSignaturesPhase true p sigOf files = []) ∧
    (∀ (p : Bool) (cmp : String → String → ℚ) (t : ℚ)
       (sigs : List (String × String)) (files : List String) (dups : List Group),
       find_similar_pairs_optimized true p cmp t sigs files dups = dups) ∧
    (∀ (p : Bool) (category : String) (cmp : String → String → ℚ) (t : ℚ)
       (sigOf : String → Option String) (files : List String),
       find_duplicates true p category cmp t sigOf files = []) ∧
    (∀ gs : List Group, saveLoop true gs = []) ∧
    (∀ s : ScannerFlags, (stopCall s).is_stopped = true ∧
       (stopCall s).is_paused = false) := by
  refine ⟨?_, ?_, ?_, ?_, ?_, ?_⟩
  · intro s cs
    exact applyCalls_stopped cs (stopCall s) rfl
  · intro p sigOf files
    rfl
  · intro p cmp t sigs files dups
    rfl
  · intro p category cmp t sigOf files
    simp only [find_duplicates, computeSignaturesPhase, exactGroupsPhase,
      find_similar_pairs_optimized, if_true]
    split <;> rfl
  · intro gs
    cases gs <;> rfl
  · intro s
    exact ⟨rfl, rfl⟩

/-- C10: a pair joining an existing group in the fuzzy phase changes only
the member list: every pre-existing group keeps its position, its score and
its members; exact-phase groups are created with score 1.0; and concretely,
a near-duplicate document joining (at threshold 0) the exact-match group of
two identical documents leaves the persisted score at 1.0 even though the
added member's pairwise similarity against the group is 0, below 1.0. -/
theorem spec_C10 :
    (∀ (cmp : String → String → ℚ) (t : ℚ) (sigs : List (String × String))
       (files : List String) (dups : List Group),
       DupsLe dups (fuzzyCore cmp t sigs files dups)) ∧
    (∀ (sigOf : String → Option String) (files : List String) (g : Group),
       g ∈ exactGroups sigOf files → g.2 = 1) ∧
    (find_duplicates false false "document" DocumentDetector.compare_signatures 0
       Ex.sigOfDocsAB ["A", "B", "C"] = [(["A", "B", "C"], 1)]) ∧
    (DocumentDetector.compare_signatures "aaaaaaaa1" "aaaaaaaa2" < 1) := by
  refine ⟨?_, ?_, ?_, ?_⟩
  · intro cmp t sigs files dups
    exact fuzzyCore_mono
  · intro sigOf files g hg
    exact exactGroups_score hg
  · simp +decide [find_duplicates, fuzzyCategories, computeSignaturesPhase,
      computeSigMap, exactGroupsPhase, exactGroups, groupByKey, groupByKeyAux,
      addToBucket, find_similar_pairs_optimized, fuzzyCore, prefixKey,
      allBuckets, bucketLoop, innerLoop, pairStep, getSig, getSigD, lookupStr,
      truthy, pairKey, tryJoin, joinOrCreate, matchesAll, addMember,
      Ex.sigOfDocsAB, DocumentDetector.compare_signatures]
  · decide

/-- Witness for C10: the preservation statement applied to a concrete
one-group list that the fuzzy phase leaves in place. -/
theorem spec_C10_witness :
    ([(["X"], (1 : ℚ)/2)] : List Group)[0]? = some (["X"], (1 : ℚ)/2) ∧
    ∃ g' : Group,
      (fuzzyCore DocumentDetector.compare_signatures 1 [] [] [(["X"], (1 : ℚ)/2)])[0]? =
        some g' ∧ g'.2 = (1 : ℚ)/2 ∧ (["X"] : List String) ⊆ g'.1 :=
  ⟨rfl, spec_C10.1 DocumentDetector.compare_signatures 1 [] [] [(["X"], (1 : ℚ)/2)]
    0 (["X"], (1 : ℚ)/2) rfl⟩

/-! ### Helpers for the remaining claims -/

theorem splitOnP_ne_nil (p : Char → Bool) (l : List Char) : splitOnP p l ≠ [] := by
  cases l with
  | nil => simp [splitOnP]
  | cons x xs =>
      cases hpx : p x with
      | true => simp [splitOnP, hpx]
      | false =>
          cases h : splitOnP p xs with
          | nil => simp [splitOnP, hpx, h]
          | cons y ys => simp [splitOnP, hpx, h]

theorem pySplitChar_ne_nil (c : Char) (s : String) : pySplitChar c s ≠ [] := by
  simp only [pySplitChar, ne_eq, List.map_eq_nil_iff]
  exact splitOnP_ne_nil _ _

/-- Every member of every group `_find_duplicates` produces has a truthy
signature, under every flag setting and category. -/
theorem find_duplicates_members (stopped paused : Bool) (category : String)
    (cmp : String → String → ℚ) (t : ℚ) (sigOf : String → Option String)
    (files : List String) :
    ∀ g ∈ find_duplicates stopped paused category cmp t sigOf files,
      ∀ x ∈ g.1, ∃ s, truthy (sigOf x) = some s := by
  intro g hg x hx
  cases stopped with
  | true =>
      have hempty : find_duplicates true paused category cmp t sigOf files = [] := by
        simp only [find_duplicates, computeSignaturesPhase, exactGroupsPhase,
          find_similar_pairs_optimized, if_true]
        split <;> rfl
      rw [hempty] at hg
      cases hg
  | false =>
      cases paused with
      | true =>
          have hform : find_duplicates false true category cmp t sigOf files =
              if category ∈ fuzzyCategories then fuzzyCore cmp t [] files []
              else [] := by
            simp [find_duplicates, computeSignaturesPhase, exactGroupsPhase,
              find_similar_pairs_optimized]
          rw [hform] at hg
          by_cases hcat : category ∈ fuzzyCategories
          · rw [if_pos hcat] at hg
            have hms : MembersHaveSigs [] (fuzzyCore cmp t [] files []) :=
              fuzzyCore_sigs (fun g' hg' => absurd hg' (List.not_mem_nil g'))
            have hfalse := hms g hg x hx
            simp [getSig, lookupStr, truthy] at hfalse
          · rw [if_neg hcat] at hg
            cases hg
      | false =>
          rw [find_duplicates_run] at hg
          by_cases hcat : category ∈ fuzzyCategories
          · rw [if_pos hcat] at hg
            have hms : MembersHaveSigs (computeSigMap sigOf files)
                (fuzzyCore cmp t (computeSigMap sigOf files) files
                  (exactGroups sigOf files)) :=
              fuzzyCore_sigs exactGroups_sigs
            obtain ⟨s, hs⟩ := Option.isSome_iff_exists.mp (hms g hg x hx)
            exact ⟨s, lookupStr_computeSigMap (getSig_some_truthy hs)⟩
          · rw [if_neg hcat] at hg
            obtain ⟨s, hs⟩ :=
              Option.isSome_iff_exists.mp (exactGroups_sigs g hg x hx)
            exact ⟨s, lookupStr_computeSigMap (getSig_some_truthy hs)⟩

/-- C4: the true core of the claim: a file for which the detector yields no
truthy signature (permission denied, unreadable, or an empty result) is
excluded from every produced group, for every flag setting and category,
and a permission-denied archive (raised read) indeed gets no signature.
The claim's zero-byte case is refuted separately: a readable zero-byte
archive hashes its empty byte stream to a valid SHA-256 signature and is
not excluded. -/
theorem spec_C4 :
    (∀ (stopped paused : Bool) (category : String) (cmp : String → String → ℚ)
       (t : ℚ) (sigOf : String → Option String) (files : List String)
       (f : String), truthy (sigOf f) = none →
       ∀ g ∈ find_duplicates stopped paused category cmp t sigOf files,
         f ∉ g.1) ∧
    (ArchiveDetector.compute_signature none = none) := by
  refine ⟨?_, rfl⟩
  intro stopped paused category cmp t sigOf files f hnone g hg hf
  obtain ⟨s, hs⟩ :=
    find_duplicates_members stopped paused category cmp t sigOf files g hg f hf
  rw [hnone] at hs
  cases hs

/-- Counterexample to C4: a readable zero-byte archive is not excluded:
its signature is the valid SHA-256 of the empty byte stream, and two
zero-byte archives are grouped as exact duplicates (only the
permission-denied third file drops out). -/
theorem spec_C4_counterexample :
    Ex.rawZip "a.zip" = some [] ∧
    Ex.sigOfZip "a.zip" = some (sha256hex []) ∧
    find_duplicates false false "archive" (fun _ _ => 0) 1 Ex.sigOfZip
      ["a.zip", "b.zip", "c.zip"] = [(["a.zip", "b.zip"], 1)] :=
  ⟨by decide, by decide, by decide⟩

/-- Witness for C4: the permission-denied archive of the concrete scenario
is in no produced group. -/
theorem spec_C4_witness :
    truthy (Ex.sigOfZip "c.zip") = none ∧
    ∀ g ∈ find_duplicates false false "archive" (fun _ _ => 0) 1 Ex.sigOfZip
        ["a.zip", "b.zip", "c.zip"], "c.zip" ∉ g.1 :=
  ⟨by decide, spec_C4.1 false false "archive" (fun _ _ => 0) 1 Ex.sigOfZip
     ["a.zip", "b.zip", "c.zip"] "c.zip" (by decide)⟩

/-- C5: the true core of the claim.  The `BoundedCache` of the document
and code detectors is bounded (a cache within its maximum never grows past
it under any sequence of `set` calls) with least-recently-used eviction (a
full cache drops its front entry, the least recently used); but it maps
the path to the extracted / normalized text, not to the signature: on a
cache hit, `compute_signature` skips only the extraction or normalization
step and recomputes the SHA-256 of the cached text on every call — the
hash itself is never cached.  The image and video detectors cache
signatures in plain unbounded dicts: a repeated `compute_signature` call
on a cached path returns the cached signature without running the hashing
pipeline and without changing the cache.  The archive detector has no
cache, and the image cache's boundedness is refuted separately. -/
theorem spec_C5 :
    (∀ (ops : List (String × String)) (c : BoundedCache),
       1 ≤ c.maxsize → c.entries.length ≤ c.maxsize →
       (applySets ops c).entries.length ≤ c.maxsize) ∧
    (∀ (c : BoundedCache) (k v : String),
       lookupStr c.entries k = none → c.maxsize ≤ c.entries.length →
       (c.set k v).entries = c.entries.drop 1 ++ [(k, v)]) ∧
    (∀ (hashOf : String → Option String) (cache : List (String × String))
       (p v : String), lookupStr cache p = some v →
       ImageDetector.compute_signature hashOf cache p = (some v, cache)) ∧
    (∀ (sigOf : String → Option String) (cache : List (String × String))
       (p v : String), lookupStr cache p = some v →
       VideoDetector.compute_signature_cached sigOf cache p = (some v, cache)) ∧
    (∀ (rawOf : String → Option String) (cache : BoundedCache)
       (path text : String), lookupStr cache.entries path = some text →
       DocumentDetector.extract_text_cached rawOf cache path =
         (some text, ⟨cache.maxsize,
           cache.entries.filter (fun q => q.1 != path) ++ [(path, text)]⟩) ∧
       DocumentDetector.compute_signature_cached rawOf cache path =
         ((if text = "" ∨ (DocumentDetector.pyStrip text).length < 10 then none
           else some (sha256hex (utf8Bytes text))),
          ⟨cache.maxsize,
           cache.entries.filter (fun q => q.1 != path) ++ [(path, text)]⟩)) ∧
    (∀ (rawOf : String → Option String) (cache : BoundedCache)
       (path code : String), lookupStr cache.entries path = some code →
       CodeDetector.normalize_code_cached rawOf cache path =
         (some code, ⟨cache.maxsize,
           cache.entries.filter (fun q => q.1 != path) ++ [(path, code)]⟩) ∧
       CodeDetector.compute_signature_cached rawOf cache path =
         ((if code = "" then none else some (sha256hex (utf8Bytes code))),
          ⟨cache.maxsize,
           cache.entries.filter (fun q => q.1 != path) ++ [(path, code)]⟩)) := by
  refine ⟨?_, ?_, ?_, ?_, ?_, ?_⟩
  · intro ops c h1 h2
    have h := applySets_bound ops c h1 h2
    rwa [applySets_maxsize] at h
  · intro c k v hl hfull
    exact BoundedCache.set_entries_evict v hl hfull
  · intro hashOf cache p v h
    exact compute_signature_hit h
  · intro sigOf cache p v h
    simp [VideoDetector.compute_signature_cached, h]
  · intro rawOf cache path text h
    have hget : cache.get path = (some text, ⟨cache.maxsize,
        cache.entries.filter (fun q => q.1 != path) ++ [(path, text)]⟩) := by
      simp [BoundedCache.get, h]
    constructor
    · simp [DocumentDetector.extract_text_cached, hget]
    · by_cases hc : text = "" ∨ (DocumentDetector.pyStrip text).length < 10
      · simp [DocumentDetector.compute_signature_cached,
          DocumentDetector.extract_text_cached, hget, hc]
      · simp [DocumentDetector.compute_signature_cached,
          DocumentDetector.extract_text_cached, hget, hc]
  · intro rawOf cache path code h
    have hget : cache.get path = (some code, ⟨cache.maxsize,
        cache.entries.filter (fun q => q.1 != path) ++ [(path, code)]⟩) := by
      simp [BoundedCache.get, h]
    constructor
    · simp [CodeDetector.normalize_code_cached, hget]
    · by_cases hc : code = ""
      · simp [CodeDetector.compute_signature_cached,
          CodeDetector.normalize_code_cached, hget, hc]
      · simp [CodeDetector.compute_signature_cached,
          CodeDetector.normalize_code_cached, hget, hc]

/-- Counterexample to C5: the image detector's cache is a plain dict with
no eviction: after `compute_signature` calls on `n` distinct fresh paths
it holds `n` entries, so no fixed maximum bounds its size. -/
theorem spec_C5_counterexample :
    ¬ ∃ M : Nat, ∀ n : Nat,
      (ImageDetector.cacheAfter (fun _ => some "h")
        ((List.range n).map Ex.pathN) []).length ≤ M := by
  rintro ⟨M, hM⟩
  have hnd : ((List.range (M + 1)).map Ex.pathN).Nodup :=
    List.Nodup.map pathN_injective (List.nodup_range (M + 1))
  have hlen := @cacheAfter_length (fun _ => some "h") (fun _ => rfl)
    ((List.range (M + 1)).map Ex.pathN) [] hnd (fun p _ => rfl)
  have hM1 := hM (M + 1)
  rw [hlen] at hM1
  simp only [List.length_nil, List.length_map, List.length_range] at hM1
  omega

/-- Witness for C5: three insertions into an empty two-slot cache stay
within the bound; an image and a video cache hit are served unchanged; and
a document and a code text-cache hit still produce a freshly computed
SHA-256 of the cached text. -/
theorem spec_C5_witness :
    (applySets [("k1", "v1"), ("k2", "v2"), ("k3", "v3")]
      ⟨2, []⟩).entries.length ≤ 2 ∧
    ImageDetector.compute_signature (fun _ => none) [("p", "h")] "p" =
      (some "h", [("p", "h")]) ∧
    VideoDetector.compute_signature_cached (fun _ => none) [("vp", "vh")] "vp" =
      (some "vh", [("vp", "vh")]) ∧
    (DocumentDetector.compute_signature_cached (fun _ => none)
      ⟨1000, [("d", "aaaaaaaaaa")]⟩ "d").1 =
      some (sha256hex (utf8Bytes "aaaaaaaaaa")) ∧
    (CodeDetector.compute_signature_cached (fun _ => none)
      ⟨1000, [("c", "bbbbbbbbbb")]⟩ "c").1 =
      some (sha256hex (utf8Bytes "bbbbbbbbbb")) :=
  ⟨spec_C5.1 [("k1", "v1"), ("k2", "v2"), ("k3", "v3")] ⟨2, []⟩ (by decide)
     (by decide),
   spec_C5.2.2.1 (fun _ => none) [("p", "h")] "p" "h" (by decide),
   spec_C5.2.2.2.1 (fun _ => none) [("vp", "vh")] "vp" "vh" (by decide),
   by
     have h := (spec_C5.2.2.2.2.1 (fun _ => none)
       (⟨1000, [("d", "aaaaaaaaaa")]⟩ : BoundedCache) "d" "aaaaaaaaaa"
       (by decide)).2
     rw [h]
     simp +decide,
   by
     have h := (spec_C5.2.2.2.2.2 (fun _ => none)
       (⟨1000, [("c", "bbbbbbbbbb")]⟩ : BoundedCache) "c" "bbbbbbbbbb"
       (by decide)).2
     rw [h]
     simp +decide⟩

/-- C6: for well-formed image signatures (three delimiter-joined 36-digit
hex hashes, the shape produced with the scanner's `hash_size = 12`),
`compare_signatures` returns the minimum over the three channels of
`1 - hammingDistance / 144`, and that value lies in `[0, 1]`; a signature
that does not split into exactly three parts yields 0.0. -/
theorem spec_C6 :
    (∀ (sig1 sig2 a1 b1 c1 a2 b2 c2 : String),
       pySplitChar '|' sig1 = [a1, b1, c1] →
       pySplitChar '|' sig2 = [a2, b2, c2] →
       hexWF 36 a1 = true → hexWF 36 b1 = true → hexWF 36 c1 = true →
       hexWF 36 a2 = true → hexWF 36 b2 = true → hexWF 36 c2 = true →
       ImageDetector.compare_signatures 12 sig1 sig2 =
         minList
           [1 - (hammingBits (hexBitsD a1) (hexBitsD a2) : ℚ) / 144,
            1 - (hammingBits (hexBitsD b1) (hexBitsD b2) : ℚ) / 144,
            1 - (hammingBits (hexBitsD c1) (hexBitsD c2) : ℚ) / 144] ∧
       0 ≤ ImageDetector.compare_signatures 12 sig1 sig2 ∧
       ImageDetector.compare_signatures 12 sig1 sig2 ≤ 1) ∧
    (∀ sig1 sig2, ImageDetector.parse_signature sig1 = none →
       ImageDetector.compare_signatures 12 sig1 sig2 = 0) ∧
    (∀ sig1 sig2, ImageDetector.parse_signature sig2 = none →
       ImageDetector.compare_signatures 12 sig1 sig2 = 0) := by
  refine ⟨?_, ?_, ?_⟩
  · intro sig1 sig2 a1 b1 c1 a2 b2 c2 h1 h2 hwa1 hwb1 hwc1 hwa2 hwb2 hwc2
    have hp1 : ImageDetector.parse_signature sig1 = some [a1, b1, c1] := by
      simp [ImageDetector.parse_signature, h1]
    have hp2 : ImageDetector.parse_signature sig2 = some [a2, b2, c2] := by
      simp [ImageDetector.parse_signature, h2]
    have hsq : isSquareLen (4 * 36) = true := by decide
    have ha := @subHash_of_wf 36 a1 a2 (by norm_num) hsq hwa1 hwa2
    have hb := @subHash_of_wf 36 b1 b2 (by norm_num) hsq hwb1 hwb2
    have hc := @subHash_of_wf 36 c1 c2 (by norm_num) hsq hwc1 hwc2
    have hmap : ([(a1, a2), (b1, b2), (c1, c2)]).mapM
        (fun p => subHash p.1 p.2) =
        some [hammingBits (hexBitsD a1) (hexBitsD a2),
              hammingBits (hexBitsD b1) (hexBitsD b2),
              hammingBits (hexBitsD c1) (hexBitsD c2)] := by
      have := mapM_eq_some_map (fun p => subHash p.1 p.2)
        (fun p => hammingBits (hexBitsD p.1) (hexBitsD p.2))
        [(a1, a2), (b1, b2), (c1, c2)] ?_
      · simpa using this
      · intro p hp
        simp only [List.mem_cons, List.not_mem_nil, or_false] at hp
        rcases hp with rfl | rfl | rfl
        · exact ha.1
        · exact hb.1
        · exact hc.1
    have hmain : ImageDetector.compare_signatures 12 sig1 sig2 =
        minList
          [1 - (hammingBits (hexBitsD a1) (hexBitsD a2) : ℚ) / 144,
           1 - (hammingBits (hexBitsD b1) (hexBitsD b2) : ℚ) / 144,
           1 - (hammingBits (hexBitsD c1) (hexBitsD c2) : ℚ) / 144] := by
      simp only [ImageDetector.compare_signatures, hp1, hp2,
        List.zip_cons_cons, List.zip_nil_right, hmap, List.map_cons,
        List.map_nil]
      norm_num
    have hbq : ∀ d : Nat, d ≤ 144 →
        (0 : ℚ) ≤ 1 - (d : ℚ) / 144 ∧ 1 - (d : ℚ) / 144 ≤ 1 := by
      intro d hd
      constructor
      · have hle : (d : ℚ) / 144 ≤ 1 := by
          rw [div_le_one (by norm_num)]
          exact_mod_cast hd
        linarith
      · have hnn : (0 : ℚ) ≤ (d : ℚ) / 144 :=
          div_nonneg (by positivity) (by norm_num)
        linarith
    have hball : ∀ x ∈
        [1 - (hammingBits (hexBitsD a1) (hexBitsD a2) : ℚ) / 144,
         1 - (hammingBits (hexBitsD b1) (hexBitsD b2) : ℚ) / 144,
         1 - (hammingBits (hexBitsD c1) (hexBitsD c2) : ℚ) / 144],
        (0 : ℚ) ≤ x ∧ x ≤ 1 := by
      intro x hx
      simp only [List.mem_cons, List.not_mem_nil, or_false] at hx
      rcases hx with rfl | rfl | rfl
      · exact hbq _ (by have := ha.2; omega)
      · exact hbq _ (by have := hb.2; omega)
      · exact hbq _ (by have := hc.2; omega)
    have hmm := minList_bounds (List.cons_ne_nil _ _) hball
    exact ⟨hmain, by rw [hmain]; exact hmm.1, by rw [hmain]; exact hmm.2⟩
  · intro sig1 sig2 h
    simp [ImageDetector.compare_signatures, h]
  · intro sig1 sig2 h
    cases hp : ImageDetector.parse_signature sig1 <;>
      simp [ImageDetector.compare_signatures, hp, h]

/-- Witness for C6: the all-ones signature against its one-flipped-bit
variant. -/
theorem spec_C6_witness :
    ImageDetector.compare_signatures 12 Ex.sigAllF Ex.sigOneBit =
      minList
        [1 - (hammingBits (hexBitsD "ffffffffffffffffffffffffffffffffffff")
              (hexBitsD "ffffffffffffffffffffffffffffffffffff") : ℚ) / 144,
         1 - (hammingBits (hexBitsD "ffffffffffffffffffffffffffffffffffff")
              (hexBitsD "ffffffffffffffffffffffffffffffffffff") : ℚ) / 144,
         1 - (hammingBits (hexBitsD "ffffffffffffffffffffffffffffffffffff")
              (hexBitsD "fffffffffffffffffffffffffffffffffffe") : ℚ) / 144] ∧
    0 ≤ ImageDetector.compare_signatures 12 Ex.sigAllF Ex.sigOneBit ∧
    ImageDetector.compare_signatures 12 Ex.sigAllF Ex.sigOneBit ≤ 1 :=
  spec_C6.1 Ex.sigAllF Ex.sigOneBit
    "ffffffffffffffffffffffffffffffffffff" "ffffffffffffffffffffffffffffffffffff"
    "ffffffffffffffffffffffffffffffffffff" "ffffffffffffffffffffffffffffffffffff"
    "ffffffffffffffffffffffffffffffffffff" "fffffffffffffffffffffffffffffffffffe"
    (by decide) (by decide) (by decide) (by decide) (by decide) (by decide)
    (by decide) (by decide)

/-- C7: video `compare_signatures` returns 0.0 when the two signatures
hold different numbers of frame hashes, and otherwise (for well-formed
16-digit frame hashes, the shape `average_hash` produces with
`hash_size = 8`) the mean over frame positions of
`1 - hammingDistance / 64`; and for a positive total frame count at most
the sample count, `compute_signature` samples every available frame index
`0, ..., total - 1`. -/
theorem spec_C7 :
    (∀ sig1 sig2 : String,
       (pySplitChar '|' sig1).length ≠ (pySplitChar '|' sig2).length →
       VideoDetector.compare_signatures sig1 sig2 = 0) ∧
    (∀ (sig1 sig2 : String) (hs1 hs2 : List String),
       pySplitChar '|' sig1 = hs1 → pySplitChar '|' sig2 = hs2 →
       hs1.length = hs2.length →
       (∀ p ∈ hs1.zip hs2, hexWF 16 p.1 = true ∧ hexWF 16 p.2 = true) →
       VideoDetector.compare_signatures sig1 sig2 =
         ((hs1.zip hs2).map
           (fun p => 1 - (hammingBits (hexBitsD p.1) (hexBitsD p.2) : ℚ) / 64)).sum
           / (hs1.length : ℚ)) ∧
    (∀ (sample total : Nat) (readFrame : Nat → Option String),
       0 < total → total ≤ sample →
       VideoDetector.compute_signature sample total readFrame =
         (if (List.range total).filterMap readFrame = [] then none
          else some (String.intercalate "|"
            ((List.range total).filterMap readFrame)))) := by
  refine ⟨?_, ?_, ?_⟩
  · intro sig1 sig2 hne
    simp only [VideoDetector.compare_signatures]
    rw [if_pos hne]
  · intro sig1 sig2 hs1 hs2 h1 h2 hlen hwf
    have hne1 : hs1 ≠ [] := h1 ▸ pySplitChar_ne_nil '|' sig1
    have hzne : hs1.zip hs2 ≠ [] := by
      cases hs1 with
      | nil => exact absurd rfl hne1
      | cons a as =>
          cases hs2 with
          | nil => simp at hlen
          | cons b bs => simp
    have hmap := mapM_eq_some_map (fun p => subHash p.1 p.2)
      (fun p => hammingBits (hexBitsD p.1) (hexBitsD p.2)) (hs1.zip hs2)
      (fun p hp => (@subHash_of_wf 16 p.1 p.2 (by norm_num) (by decide)
        (hwf p hp).1 (hwf p hp).2).1)
    have hkey : VideoDetector.compare_signatures sig1 sig2 =
        (if ((hs1.zip hs2).map
              (fun p => hammingBits (hexBitsD p.1) (hexBitsD p.2))).map
              (fun d : Nat => 1 - (d : ℚ) / 64) = [] then 0
         else (((hs1.zip hs2).map
              (fun p => hammingBits (hexBitsD p.1) (hexBitsD p.2))).map
              (fun d : Nat => 1 - (d : ℚ) / 64)).sum /
           ((((hs1.zip hs2).map
              (fun p => hammingBits (hexBitsD p.1) (hexBitsD p.2))).map
              (fun d : Nat => 1 - (d : ℚ) / 64)).length : ℚ)) := by
      simp only [VideoDetector.compare_signatures, h1, h2]
      rw [if_neg (fun hcon => hcon hlen), hmap]
    rw [hkey, if_neg (by simp [hzne])]
    simp only [List.map_map, Function.comp_def, List.length_map,
      List.length_zip, hlen, Nat.min_self]
  · intro sample total readFrame h0 hle
    have h0' : ¬ total = 0 := Nat.pos_iff_ne_zero.mp h0
    simp only [VideoDetector.compute_signature, if_neg h0', if_pos hle]

/-- Witness for C7: a one-frame against a two-frame signature scores 0; two
two-frame signatures differing in one bit of one frame score the mean of
the per-frame similarities; a three-frame video sampled at ten hashes all
three frames. -/
theorem spec_C7_witness :
    VideoDetector.compare_signatures "0000000000000000|0000000000000000"
      "0000000000000000" = 0 ∧
    VideoDetector.compare_signatures "0000000000000000|0000000000000000"
      "0000000000000001|0000000000000000" =
      (((["0000000000000000", "0000000000000000"] : List String).zip
        ["0000000000000001", "0000000000000000"]).map
        (fun p => 1 - (hammingBits (hexBitsD p.1) (hexBitsD p.2) : ℚ) / 64)).sum
        / ((["0000000000000000", "0000000000000000"] : List String).length : ℚ) ∧
    VideoDetector.compute_signature 10 3 (fun _ => some "0000000000000000") =
      (if (List.range 3).filterMap (fun _ => some ("0000000000000000" : String))
          = [] then none
       else some (String.intercalate "|"
        ((List.range 3).filterMap (fun _ => some ("0000000000000000" : String))))) :=
  ⟨spec_C7.1 "0000000000000000|0000000000000000" "0000000000000000" (by decide),
   spec_C7.2.1 "0000000000000000|0000000000000000"
     "0000000000000001|0000000000000000"
     ["0000000000000000", "0000000000000000"]
     ["0000000000000001", "0000000000000000"] (by decide) (by decide) rfl
     (by decide),
   spec_C7.2.2 10 3 (fun _ => some "0000000000000000") (by norm_num)
     (by norm_num)⟩

/-- C8: the true part of the claim: the file-level signature loop polls the
pause flag (no signature is recorded while the scanner is paused), a set
stop flag makes the pair loop return its input untouched, and an
already-computed signature is served from the cache without recomputation.
The pair-level pause polling is refuted separately: the pair loop polls
only the stop flag, so with pause set and stop clear it behaves exactly as
when running. -/
theorem spec_C8 :
    (∀ (sigOf : String → Option String) (files : List String),
       computeSignaturesPhase false true sigOf files = []) ∧
    (∀ (p : Bool) (cmp : String → String → ℚ) (t : ℚ)
       (sigs : List (String × String)) (files : List String)
       (dups : List Group),
       find_similar_pairs_optimized true p cmp t sigs files dups = dups) ∧
    (∀ (cmp : String → String → ℚ) (t : ℚ) (sigs : List (String × String))
       (files : List String) (dups : List Group),
       find_similar_pairs_optimized false true cmp t sigs files dups =
         find_similar_pairs_optimized false false cmp t sigs files dups) ∧
    (∀ (hashOf : String → Option String) (cache : List (String × String))
       (p v : String), lookupStr cache p = some v →
       ImageDetector.compute_signature hashOf cache p = (some v, cache)) := by
  refine ⟨fun _ _ => rfl, fun _ _ _ _ _ _ => rfl, fun _ _ _ _ _ => rfl, ?_⟩
  intro hashOf cache p v h
  exact compute_signature_hit h

/-- Counterexample to C8: with the pause flag set (and stop clear) the
pairwise loop still runs to completion: two near-duplicate images sharing
a signature prefix are compared and grouped while the scanner is paused,
because the pair loop of `_find_similar_pairs_optimized` polls only the
stop flag. -/
theorem spec_C8_counterexample :
    find_similar_pairs_optimized false true (ImageDetector.compare_signatures 12)
      ((19 : ℚ)/20) [("A", Ex.sigAllF), ("C", Ex.sigOneBit)] ["A", "C"] [] =
      [(["A", "C"], 143/144)] := by
  decide

/-- Witness for C8: a paused scanner records no signature, a stopped pair
loop returns its input, and a cache hit is served unchanged. -/
theorem spec_C8_witness :
    computeSignaturesPhase false true Ex.sigOfDocs ["f1", "f2"] = [] ∧
    find_similar_pairs_optimized true false DocumentDetector.compare_signatures
      1 [("f1", "x")] ["f1"] [(["a", "b"], 1)] = [(["a", "b"], 1)] ∧
    ImageDetector.compute_signature (fun _ => none) [("q", "h2")] "q" =
      (some "h2", [("q", "h2")]) :=
  ⟨spec_C8.1 Ex.sigOfDocs ["f1", "f2"],
   spec_C8.2.1 false DocumentDetector.compare_signatures 1 [("f1", "x")] ["f1"]
     [(["a", "b"], 1)],
   spec_C8.2.2.2 (fun _ => none) [("q", "h2")] "q" "h2" (by decide)⟩

end Dedup
